import Mathlib

/-!
# DID resolution driver (`main.go`)

A shallow embedding of the resolution handler registered in `main` for
`GET /1.0/identifiers/:did`, together with the parts of the Go standard
library (`unicode/utf8`, `unicode`, `strings`) that the handler calls.

* A Go `string` and a Go `[]byte` are byte sequences: `List Nat`, one element
  per byte (values `0 .. 255`).  Nothing requires a string to be valid UTF-8.
* A Go `rune` is a `Nat` (only non-negative runes arise here).
* A Go `error` is represented by the text `err.Error()` returns.
* The remote ledger client, the gob decoder, the content store and the JSON
  decoder are parameters of the handler (`Env`); the handler records the calls
  it makes to them.
* `fmt.Sprintf("/ipfs/%s", hash)` and `fmt.Errorf("gob decode err: %w", err)`
  put a fixed text in front of their argument.
* Loops are recursive functions; where a loop is not structural its first
  argument bounds the number of iterations, and the callers pass a bound the
  loop cannot exceed.
-/

namespace Driver

/-- Go `string`: a sequence of bytes. -/
abbrev GoString := List Nat

/-- Go `[]byte`. -/
abbrev Bytes := List Nat

/-! ## `unicode/utf8` -/

namespace utf8

/-- The "error" rune, U+FFFD. -/
def RuneError : Nat := 0xFFFD

/-- Bytes below `RuneSelf` stand for themselves. -/
def RuneSelf : Nat := 0x80

/-- Largest valid code point. -/
def MaxRune : Nat := 0x10FFFF

/-- Maximum number of bytes of an encoded rune. -/
def UTFMax : Nat := 4

def surrogateMin : Nat := 0xD800

def surrogateMax : Nat := 0xDFFF

def t2 : Nat := 0xC0

def t3 : Nat := 0xE0

def t4 : Nat := 0xF0

def tx : Nat := 0x80

def maskx : Nat := 0x3F

def mask2 : Nat := 0x1F

def mask3 : Nat := 0x0F

def mask4 : Nat := 0x07

def rune1Max : Nat := 0x7F

def rune2Max : Nat := 0x7FF

def rune3Max : Nat := 0xFFFF

def locb : Nat := 0x80

def hicb : Nat := 0xBF

/-- Entry of `first` for an invalid leading byte: size 1. -/
def xx : Nat := 0xF1

/-- Entry of `first` for an ASCII byte: size 1. -/
def as : Nat := 0xF0

def s1 : Nat := 0x02

def s2 : Nat := 0x13

def s3 : Nat := 0x03

def s4 : Nat := 0x23

def s5 : Nat := 0x34

def s6 : Nat := 0x04

def s7 : Nat := 0x44

/-- The table `first`: information about the first byte of an encoding. -/
def first (b : Nat) : Nat :=
  if b < 0x80 then as
  else if b < 0xC2 then xx
  else if b < 0xE0 then s1
  else if b = 0xE0 then s2
  else if b < 0xED then s3
  else if b = 0xED then s4
  else if b < 0xF0 then s3
  else if b = 0xF0 then s5
  else if b < 0xF4 then s6
  else if b = 0xF4 then s7
  else xx

/-- The table `acceptRanges`: the range `(lo, hi)` allowed for the second byte. -/
def acceptRanges (i : Nat) : Nat × Nat :=
  match i with
  | 0 => (locb, hicb)
  | 1 => (0xA0, hicb)
  | 2 => (locb, 0x9F)
  | 3 => (0x90, hicb)
  | 4 => (locb, 0x8F)
  | _ => (0, 0)

/-- The function `utf8.DecodeRuneInString`: the first rune of `s` and its width in bytes.
An empty `s` gives `(RuneError, 0)`, an invalid encoding `(RuneError, 1)`. -/
def DecodeRuneInString (s : GoString) : Nat × Nat :=
  let n := s.length
  if n < 1 then (RuneError, 0)
  else
    let s0 := s.getD 0 0
    let x := first s0
    if x ≥ as then
      -- `mask := rune(x) << 31 >> 31` is all ones exactly when bit 0 of `x` is set
      (if x &&& 1 = 0 then s0 else RuneError, 1)
    else
      let sz := x &&& 7
      let accept := acceptRanges (x >>> 4)
      if n < sz then (RuneError, 1)
      else
        let b1 := s.getD 1 0
        if b1 < accept.1 ∨ accept.2 < b1 then (RuneError, 1)
        else if sz ≤ 2 then (((s0 &&& mask2) <<< 6) ||| (b1 &&& maskx), 2)
        else
          let b2 := s.getD 2 0
          if b2 < locb ∨ hicb < b2 then (RuneError, 1)
          else if sz ≤ 3 then
            (((s0 &&& mask3) <<< 12) ||| ((b1 &&& maskx) <<< 6) ||| (b2 &&& maskx), 3)
          else
            let b3 := s.getD 3 0
            if b3 < locb ∨ hicb < b3 then (RuneError, 1)
            else
              (((s0 &&& mask4) <<< 18) ||| ((b1 &&& maskx) <<< 12) ||| ((b2 &&& maskx) <<< 6)
                ||| (b3 &&& maskx), 4)

/-- The function `utf8.RuneStart`: `b` is not a continuation byte. -/
def RuneStart (b : Nat) : Bool := b &&& 0xC0 != 0x80

/-- The backward scan of `DecodeLastRuneInString`:
`for start--; start >= lim; start-- { if RuneStart(s[start]) { break } }`,
entered with `start` already decremented.  At most `UTFMax` tests are made. -/
def lastRuneStart (s : GoString) (lim : Int) : Nat → Int → Int
  | 0, start => start
  | fuel + 1, start =>
    if start ≥ lim then
      if RuneStart (s.getD start.toNat 0) then start
      else lastRuneStart s lim fuel (start - 1)
    else start

/-- The function `utf8.DecodeLastRuneInString`: the last rune of `s` and its width in bytes. -/
def DecodeLastRuneInString (s : GoString) : Nat × Nat :=
  let e := s.length
  if e = 0 then (RuneError, 0)
  else
    let r := s.getD (e - 1) 0
    if r < RuneSelf then (r, 1)
    else
      let lim : Int := if (e : Int) - UTFMax < 0 then 0 else (e : Int) - UTFMax
      let start0 := lastRuneStart s lim UTFMax ((e : Int) - 1 - 1)
      let start := if start0 < 0 then 0 else start0.toNat
      let d := DecodeRuneInString ((s.drop start).take (e - start))
      if start + d.2 ≠ e then (RuneError, 1) else d

/-- The function `utf8.AppendRune` on an empty buffer: the UTF-8 encoding of `r`. -/
def EncodeRune (r : Nat) : Bytes :=
  if r ≤ rune1Max then [r]
  else if r ≤ rune2Max then [t2 ||| (r >>> 6), tx ||| (r &&& maskx)]
  else if r > MaxRune ∨ (surrogateMin ≤ r ∧ r ≤ surrogateMax) then
    [t3 ||| (RuneError >>> 12), tx ||| ((RuneError >>> 6) &&& maskx), tx ||| (RuneError &&& maskx)]
  else if r ≤ rune3Max then
    [t3 ||| (r >>> 12), tx ||| ((r >>> 6) &&& maskx), tx ||| (r &&& maskx)]
  else
    [t4 ||| (r >>> 18), tx ||| ((r >>> 12) &&& maskx), tx ||| ((r >>> 6) &&& maskx),
      tx ||| (r &&& maskx)]

/-- The function `utf8.ValidRune`. -/
def ValidRune (r : Nat) : Bool :=
  r < surrogateMin || (surrogateMax < r && r ≤ MaxRune)

/-- The runes a `for _, r := range s` loop yields (`fuel` bounds the number of runes). -/
def runesLoop : Nat → GoString → List Nat
  | 0, _ => []
  | fuel + 1, s =>
    if s = [] then []
    else (DecodeRuneInString s).1 :: runesLoop fuel (s.drop (DecodeRuneInString s).2)

/-- The runes of `s` in order, as `range s` yields them. -/
def runes (s : GoString) : List Nat := runesLoop s.length s

/-- The function `utf8.RuneCountInString`. -/
def RuneCountInString (s : GoString) : Nat := (runes s).length

end utf8

/-- Conversion of a string literal to its bytes (its UTF-8 encoding). -/
def lit (s : String) : GoString := s.toList.flatMap (fun c => utf8.EncodeRune c.toNat)

/-! ## `unicode` -/

namespace unicode

def MaxLatin1 : Nat := 0xFF

/-- The range table `White_Space`, as pairs `(lo, hi)`. -/
def White_Space : List (Nat × Nat) :=
  [(0x0009, 0x000d), (0x0020, 0x0020), (0x0085, 0x0085), (0x00a0, 0x00a0), (0x1680, 0x1680),
   (0x2000, 0x200a), (0x2028, 0x2029), (0x202f, 0x202f), (0x205f, 0x205f), (0x3000, 0x3000)]

/-- Membership of `r` in a range table, for runes above Latin-1 (`isExcludingLatin`). -/
def isExcludingLatin (tab : List (Nat × Nat)) (r : Nat) : Bool :=
  tab.any (fun p => MaxLatin1 < p.1 && p.1 ≤ r && r ≤ p.2)

/-- The function `unicode.IsSpace`: `r` is a white space rune as defined by Unicode. -/
def IsSpace (r : Nat) : Bool :=
  if r ≤ MaxLatin1 then
    -- case '\t', '\n', '\v', '\f', '\r', ' ', U+0085 (NEL), U+00A0 (NBSP)
    r = 0x09 || r = 0x0A || r = 0x0B || r = 0x0C || r = 0x0D || r = 0x20 || r = 0x85 || r = 0xA0
  else isExcludingLatin White_Space r

end unicode

/-! ## `strings` -/

namespace strings

/-- The function `strings.Index`: the index of the first instance of `substr` in `s`, or `-1`. -/
def Index (s substr : GoString) : Int :=
  if substr.isPrefixOf s then 0
  else
    match s with
    | [] => -1
    | _ :: t => if Index t substr < 0 then -1 else Index t substr + 1

/-- The loop of `strings.Count` for a non-empty `substr`:
`for { i := Index(s, substr); if i == -1 { return n }; n++; s = s[i+len(substr):] }`. -/
def countLoop (substr : GoString) : Nat → GoString → Nat → Nat
  | 0, _, n => n
  | fuel + 1, s, n =>
    if Index s substr = -1 then n
    else countLoop substr fuel (s.drop ((Index s substr).toNat + substr.length)) (n + 1)

/-- The function `strings.Count`: the number of non-overlapping instances of `substr` in `s`. -/
def Count (s substr : GoString) : Nat :=
  if substr.length = 0 then utf8.RuneCountInString s + 1
  else countLoop substr (s.length + 1) s 0

/-- The replacement loop of `strings.Replace`, `for i := 0; i < n; i++ { ... }`, followed by
`b.WriteString(s[start:])`.  The first argument counts the iterations left; `b` is the builder. -/
def replaceLoop (s old new : GoString) : Nat → Nat → Nat → GoString → GoString
  | 0, _, start, b => b ++ s.drop start
  | k + 1, i, start, b =>
    let j :=
      if old.length = 0 then
        if i > 0 then start + (utf8.DecodeRuneInString (s.drop start)).2 else start
      else start + (Index (s.drop start) old).toNat
    replaceLoop s old new k (i + 1) (j + old.length) (b ++ (s.drop start).take (j - start) ++ new)

/-- The function `strings.Replace`: `s` with the first `n` non-overlapping instances of `old`
replaced by `new`; all of them when `n < 0`. -/
def Replace (s old new : GoString) (n : Int) : GoString :=
  if old = new ∨ n = 0 then s
  else
    let m := Count s old
    if m = 0 then s
    else
      let n := if n < 0 ∨ (m : Int) < n then m else n.toNat
      replaceLoop s old new n 0 0 []

/-- The function `strings.IndexByte` as a membership test. -/
def containsByte (s : GoString) (c : Nat) : Bool := s.contains c

/-- The function `strings.ContainsRune`, `IndexRune(s, r) >= 0`. -/
def ContainsRune (s : GoString) (r : Nat) : Bool :=
  if r < utf8.RuneSelf then containsByte s r
  else if r = utf8.RuneError then (utf8.runes s).contains utf8.RuneError
  else if !utf8.ValidRune r then false
  else decide (Index s (utf8.EncodeRune r) ≥ 0)

/-- The function `makeASCIISet`: the set of bytes of `chars`, when all of them are ASCII. -/
def makeASCIISet (chars : GoString) : Option (List Nat) :=
  if chars.all (fun c => c < utf8.RuneSelf) then some chars else none

/-- The function `trimLeftByte`: `for len(s) > 0 && s[0] == c { s = s[1:] }`. -/
def trimLeftByte (s : GoString) (c : Nat) : GoString :=
  s.dropWhile (fun b => b = c)

/-- The function `trimLeftASCII`: `for len(s) > 0 { if !as.contains(s[0]) { break }; s = s[1:] }`. -/
def trimLeftASCII (s : GoString) (as : List Nat) : GoString :=
  s.dropWhile (fun b => as.contains b)

/-- The function `trimLeftUnicode`: drops leading runes contained in `cutset`. -/
def trimLeftUnicode (cutset : GoString) : Nat → GoString → GoString
  | 0, s => s
  | fuel + 1, s =>
    if s = [] then s
    else
      let rn := if s.getD 0 0 ≥ utf8.RuneSelf then utf8.DecodeRuneInString s else (s.getD 0 0, 1)
      if !ContainsRune cutset rn.1 then s
      else trimLeftUnicode cutset fuel (s.drop rn.2)

/-- The function `strings.TrimLeft`: `s` with all leading code points contained in `cutset`
removed. -/
def TrimLeft (s cutset : GoString) : GoString :=
  if s = [] ∨ cutset = [] then s
  else if cutset.length = 1 ∧ cutset.getD 0 0 < utf8.RuneSelf then trimLeftByte s (cutset.getD 0 0)
  else
    match makeASCIISet cutset with
    | some as => trimLeftASCII s as
    | none => trimLeftUnicode cutset s.length s

/-- The table `asciiSpace`: 1 for the bytes of tab, newline, vertical tab, form feed, carriage
return and space, 0 for every other byte. -/
def asciiSpace (c : Nat) : Nat :=
  if c = 0x09 ∨ c = 0x0A ∨ c = 0x0B ∨ c = 0x0C ∨ c = 0x0D ∨ c = 0x20 then 1 else 0

/-- The loop of `indexFunc`, `for i, r := range s { if f(r) == truth { return i } }; return -1`:
`s` is what is left of the string and `i` the index of its first byte. -/
def indexFuncLoop (f : Nat → Bool) (truth : Bool) : Nat → GoString → Nat → Int
  | 0, _, _ => -1
  | fuel + 1, s, i =>
    if s = [] then -1
    else if f (utf8.DecodeRuneInString s).1 == truth then i
    else
      indexFuncLoop f truth fuel (s.drop (utf8.DecodeRuneInString s).2)
        (i + (utf8.DecodeRuneInString s).2)

/-- The function `indexFunc`. -/
def indexFunc (s : GoString) (f : Nat → Bool) (truth : Bool) : Int :=
  indexFuncLoop f truth s.length s 0

/-- The loop of `lastIndexFunc`:
`for i := len(s); i > 0; { r, size := utf8.DecodeLastRuneInString(s[0:i]); i -= size;
if f(r) == truth { return i } }; return -1`. -/
def lastIndexFuncLoop (s : GoString) (f : Nat → Bool) (truth : Bool) : Nat → Nat → Int
  | 0, _ => -1
  | fuel + 1, i =>
    if i > 0 then
      if f (utf8.DecodeLastRuneInString (s.take i)).1 == truth then
        ((i - (utf8.DecodeLastRuneInString (s.take i)).2 : Nat) : Int)
      else lastIndexFuncLoop s f truth fuel (i - (utf8.DecodeLastRuneInString (s.take i)).2)
    else -1

/-- The function `lastIndexFunc`. -/
def lastIndexFunc (s : GoString) (f : Nat → Bool) (truth : Bool) : Int :=
  lastIndexFuncLoop s f truth s.length s.length

/-- The function `strings.TrimLeftFunc`: `s` without its leading runes that satisfy `f`. -/
def TrimLeftFunc (s : GoString) (f : Nat → Bool) : GoString :=
  let i := indexFunc s f false
  if i = -1 then [] else s.drop i.toNat

/-- The function `strings.TrimRightFunc`: `s` without its trailing runes that satisfy `f`. -/
def TrimRightFunc (s : GoString) (f : Nat → Bool) : GoString :=
  let i := lastIndexFunc s f false
  let i :=
    if i ≥ 0 ∧ s.getD i.toNat 0 ≥ utf8.RuneSelf then
      i + (utf8.DecodeRuneInString (s.drop i.toNat)).2
    else i + 1
  s.take i.toNat

/-- The function `strings.TrimFunc`. -/
def TrimFunc (s : GoString) (f : Nat → Bool) : GoString :=
  TrimRightFunc (TrimLeftFunc s f) f

/-- The second loop of `strings.TrimSpace`, which looks for the first ASCII non-space byte from
the end, and the return that follows it:
`for ; stop > start; stop-- { c := s[stop-1]; if c >= utf8.RuneSelf { return
TrimRightFunc(s[start:stop], unicode.IsSpace) }; if asciiSpace[c] == 0 { break } };
return s[start:stop]`. -/
def trimSpaceStop (s : GoString) (start : Nat) : Nat → Nat → GoString
  | 0, stop => (s.take stop).drop start
  | fuel + 1, stop =>
    if stop > start then
      if s.getD (stop - 1) 0 ≥ utf8.RuneSelf then
        TrimRightFunc ((s.take stop).drop start) unicode.IsSpace
      else if asciiSpace (s.getD (stop - 1) 0) = 0 then (s.take stop).drop start
      else trimSpaceStop s start fuel (stop - 1)
    else (s.take stop).drop start

/-- The first loop of `strings.TrimSpace`, which looks for the first ASCII non-space byte,
followed by the rest of the function:
`for ; start < len(s); start++ { c := s[start]; if c >= utf8.RuneSelf { return
TrimFunc(s[start:], unicode.IsSpace) }; if asciiSpace[c] == 0 { break } }`. -/
def trimSpaceStart (s : GoString) : Nat → Nat → GoString
  | 0, start => trimSpaceStop s start s.length s.length
  | fuel + 1, start =>
    if start < s.length then
      if s.getD start 0 ≥ utf8.RuneSelf then TrimFunc (s.drop start) unicode.IsSpace
      else if asciiSpace (s.getD start 0) = 0 then trimSpaceStop s start s.length s.length
      else trimSpaceStart s fuel (start + 1)
    else trimSpaceStop s start s.length s.length

/-- The function `strings.TrimSpace`: `s` with all leading and trailing white space removed, as
defined by Unicode. -/
def TrimSpace (s : GoString) : GoString := trimSpaceStart s s.length 0

end strings

/-! ## `main.go` -/

/-- Go `error`, represented by its message `err.Error()`. -/
abbrev error := GoString

/-- The struct `Info`: the registry record of a DID method. -/
structure Info where
  /-- method name -/
  Method : GoString
  /-- owner of the method, is a did -/
  Owner : GoString
  /-- address where the doc file stored -/
  DocAddr : GoString
  /-- hash of the doc file -/
  DocHash : Bytes
  /-- status of method -/
  Status : GoString
deriving DecidableEq, Repr

/-- The struct `PubKey`. -/
structure PubKey where
  ID : GoString
  /-- The field `Type` of the Go struct. -/
  Type_ : GoString
  PublicKeyPem : GoString
deriving DecidableEq, Repr

/-- The struct `Auth`. -/
structure Auth where
  /-- ID of PublicKey -/
  PublicKey : List GoString
deriving DecidableEq, Repr

/-- The struct `BasicDoc`, the fundamental part of the doc structure.  The field `Service` has
the Go type `interface{}`; its values are taken from a type `σ` the handler never inspects. -/
structure BasicDoc (σ : Type) where
  ID : GoString
  /-- The field `Type` of the Go struct. -/
  Type_ : GoString
  Created : GoString
  Updated : GoString
  Controller : GoString
  PublicKey : List PubKey
  Authentication : List Auth
  Service : σ
deriving DecidableEq, Repr

/-- A contract argument `*pb.Arg`; `rpcx.String(did)` is the only constructor the handler uses. -/
inductive Arg where
  | String (s : GoString)
deriving DecidableEq, Repr

/-- The HTTP status `http.StatusOK`. -/
def StatusOK : Nat := 200

/-- What `ctx.JSON` is given to serialise: the map `gin.H{"code": .., "message": ..}` or a
document. -/
inductive Body (σ : Type) where
  | H (code : Int) (message : GoString)
  | doc (d : BasicDoc σ)
deriving DecidableEq, Repr

/-- The response written by `ctx.JSON(status, body)`. -/
structure Response (σ : Type) where
  status : Nat
  body : Body σ
deriving DecidableEq, Repr

/-- The `code` entry of a failure body. -/
def Response.code? {σ : Type} (r : Response σ) : Option Int :=
  match r.body with
  | .H code _ => some code
  | .doc _ => none

/-- The `message` entry of a failure body. -/
def Response.message? {σ : Type} (r : Response σ) : Option GoString :=
  match r.body with
  | .H _ message => some message
  | .doc _ => none

/-- The document of a success body. -/
def Response.doc? {σ : Type} (r : Response σ) : Option (BasicDoc σ) :=
  match r.body with
  | .H _ _ => none
  | .doc d => some d

/-- The collaborators of the handler.  Each returns its value or the message of its error. -/
structure Env (σ : Type) where
  /-- The address `constant.DIDRegistryContractAddr.Address()`. -/
  DIDRegistryContractAddr : GoString
  /-- The call `client.InvokeBVMContract(address, method, nil, args...)`: `res.Ret` or `err`. -/
  InvokeBVMContract : GoString → GoString → List Arg → Except error Bytes
  /-- The call `gob.NewDecoder(buf).Decode(s)` with `s` an `*Info`. -/
  gobDecode : Bytes → Except error Info
  /-- The call `client.IPFSGet(path)`: `resp.GetData()` or `err`. -/
  IPFSGet : GoString → Except error Bytes
  /-- The call `json.Unmarshal(data, doc)` with `doc` a `*BasicDoc`. -/
  jsonUnmarshal : Bytes → Except error (BasicDoc σ)

/-- A call made to a collaborator. -/
inductive Call where
  | InvokeBVMContract (address method : GoString) (args : List Arg)
  | gobDecode (b : Bytes)
  | IPFSGet (path : GoString)
  | jsonUnmarshal (data : Bytes)
deriving DecidableEq, Repr

/-- The call is a content store fetch. -/
def Call.isIPFSGet : Call → Bool
  | .IPFSGet _ => true
  | _ => false

/-- The call is a run of the document decoder. -/
def Call.isJsonUnmarshal : Call → Bool
  | .jsonUnmarshal _ => true
  | _ => false

/-- One run of the handler: the collaborator calls it made, in order, and its response. -/
structure Run (σ : Type) where
  calls : List Call
  response : Response σ
deriving DecidableEq, Repr

/-- The function `Bytes2Struct`: gob-decode `b`; a decoder error `err` is returned as
`fmt.Errorf("gob decode err: %w", err)`. -/
def Bytes2Struct {σ : Type} (env : Env σ) (b : Bytes) : Except error Info :=
  match env.gobDecode b with
  | .error err => .error (lit "gob decode err: " ++ err)
  | .ok info => .ok info

/-- The function `WrongResponse`: `ctx.JSON(http.StatusOK, gin.H{"code": code, "message": message})`. -/
def WrongResponse {σ : Type} (code : Int) (message : GoString) : Response σ :=
  { status := StatusOK, body := .H code message }

/-- Lines 106 to 108 of `main.go`, the address normalization:
`hash := strings.TrimLeft(info.DocAddr, "data:")`,
`hash = strings.Replace(hash, "\"", "", -1)`, `hash = strings.TrimSpace(hash)`. -/
def Normalize (DocAddr : GoString) : GoString :=
  let hash := strings.TrimLeft DocAddr (lit "data:")
  let hash := strings.Replace hash (lit "\"") (lit "") (-1)
  strings.TrimSpace hash

/-- The handler registered for `GET /1.0/identifiers/:did`, applied to `did := ctx.Param("did")`.
The `logrus` calls are left out: they write to the log only. -/
def handler {σ : Type} (env : Env σ) (did : GoString) : Run σ :=
  let args := [Arg.String did]
  let c1 := [Call.InvokeBVMContract env.DIDRegistryContractAddr (lit "Resolve") args]
  match env.InvokeBVMContract env.DIDRegistryContractAddr (lit "Resolve") args with
  | .error err => { calls := c1, response := WrongResponse (-10000) err }
  | .ok ret =>
    let c2 := c1 ++ [Call.gobDecode ret]
    match Bytes2Struct env ret with
    | .error err => { calls := c2, response := WrongResponse (-10001) err }
    | .ok info =>
      let hash := Normalize info.DocAddr
      -- fmt.Sprintf("/ipfs/%s", hash)
      let path := lit "/ipfs/" ++ hash
      let c3 := c2 ++ [Call.IPFSGet path]
      match env.IPFSGet path with
      | .error err => { calls := c3, response := WrongResponse (-10002) err }
      | .ok data =>
        let c4 := c3 ++ [Call.jsonUnmarshal data]
        match env.jsonUnmarshal data with
        | .error err => { calls := c4, response := WrongResponse (-10003) err }
        | .ok doc => { calls := c4, response := { status := StatusOK, body := .doc doc } }

/-! ## Vocabulary of the statements -/

/-- The first rune of `s`, as Go decodes it, is white space. -/
def startsWithSpace (s : GoString) : Bool :=
  !s.isEmpty && unicode.IsSpace (utf8.DecodeRuneInString s).1

/-- The last rune of `s`, as Go decodes it, is white space. -/
def endsWithSpace (s : GoString) : Bool :=
  !s.isEmpty && unicode.IsSpace (utf8.DecodeLastRuneInString s).1

/-- The byte of the double-quote character. -/
def quote : Nat := 0x22

/-- The byte `b` is one of the bytes of `data:`, that is `d`, `a`, `t` or `:`. -/
def inCutset (b : Nat) : Bool := (lit "data:").contains b

/-- The string `s` begins with one of the bytes `d`, `a`, `t`, `:`. -/
def startsInCutset (s : GoString) : Bool :=
  match s with
  | [] => false
  | b :: _ => inCutset b

/-! ## Auxiliary functions for the proofs -/

/-- Drop leading runes that satisfy `f`, one `utf8.DecodeRuneInString` at a time (`fuel` bounds
the number of runes dropped).  `TrimLeftFunc_eq` shows that `strings.TrimLeftFunc` returns this. -/
def dropLeading (f : Nat → Bool) : Nat → GoString → GoString
  | 0, s => s
  | fuel + 1, s =>
    if s = [] then s
    else if f (utf8.DecodeRuneInString s).1 then
      dropLeading f fuel (s.drop (utf8.DecodeRuneInString s).2)
    else s

/-- Drop trailing runes that satisfy `f`, one `utf8.DecodeLastRuneInString` at a time (`fuel`
bounds the number of runes dropped).  `TrimRightFunc_eq` shows that `strings.TrimRightFunc`
returns this. -/
def dropTrailing (f : Nat → Bool) : Nat → GoString → GoString
  | 0, s => s
  | fuel + 1, s =>
    if s = [] then s
    else if f (utf8.DecodeLastRuneInString s).1 then
      dropTrailing f fuel (s.take (s.length - (utf8.DecodeLastRuneInString s).2))
    else s

/-! ## The condition of the address invariant -/

/-- The byte `b` is the double-quote or an ASCII white space byte. -/
def quoteOrSpace (b : Nat) : Bool := b == quote || strings.asciiSpace b != 0

/-- What is left of `DocAddr` once its leading `d`, `a`, `t`, `:` bytes are dropped, every
double-quote is removed and the leading white space runes are dropped. -/
def remainder (DocAddr : GoString) : GoString :=
  dropLeading unicode.IsSpace ((DocAddr.dropWhile inCutset).filter (fun c => c != quote)).length
    ((DocAddr.dropWhile inCutset).filter (fun c => c != quote))

/-! ## A concrete environment -/

/-- The identifier of the end-to-end scenario. -/
def exampleDid : GoString := lit "did:bitxhub:example"

/-- Registry metadata whose `DocAddr` is `data:"Qm123"`. -/
def exampleInfo : Info :=
  { Method := lit "bitxhub", Owner := lit "did:bitxhub:owner", DocAddr := lit "data:\"Qm123\"",
    DocHash := [], Status := lit "Normal" }

/-- A document, with `Unit` as the type of the `Service` values. -/
def exampleDoc : BasicDoc Unit :=
  { ID := lit "did:bitxhub:example", Type_ := lit "user", Created := lit "1617006533",
    Updated := lit "1617006533", Controller := lit "did:bitxhub:owner",
    PublicKey := [{ ID := lit "KEY#1", Type_ := lit "Secp256k1", PublicKeyPem := lit "02b9" }],
    Authentication := [{ PublicKey := [lit "KEY#1"] }], Service := () }

/-- Collaborators that succeed at every stage before stage `failAt` and fail at that stage:
`0` the ledger query, `1` the gob decoder, `2` the content store, `3` the JSON decoder; with
`failAt ≥ 4` every stage succeeds. -/
def exampleEnv (failAt : Nat) : Env Unit :=
  { DIDRegistryContractAddr := lit "0x0000000000000000000000000000000000001001"
    InvokeBVMContract := fun _ _ _ =>
      if failAt = 0 then .error (lit "rpc error: connection refused") else .ok [1, 2, 3]
    gobDecode := fun _ => if failAt = 1 then .error (lit "unexpected EOF") else .ok exampleInfo
    IPFSGet := fun _ => if failAt = 2 then .error (lit "ipfs: not found") else .ok [4, 5, 6]
    jsonUnmarshal := fun _ =>
      if failAt = 3 then .error (lit "unexpected end of JSON input") else .ok exampleDoc }

/-! ## Facts about the library functions -/

theorem IsSpace_RuneError : unicode.IsSpace utf8.RuneError = false := by decide

theorem DecodeRuneInString_nil : utf8.DecodeRuneInString [] = (utf8.RuneError, 0) := by
  rfl

theorem DecodeRuneInString_width_pos (s : GoString) (hs : s ≠ []) :
    1 ≤ (utf8.DecodeRuneInString s).2 := by
  have hlen : ¬ s.length < 1 := by
    cases s with
    | nil => exact absurd rfl hs
    | cons a t => simp
  unfold utf8.DecodeRuneInString
  simp only [hlen, if_false]
  split_ifs <;> simp

theorem first_cases (a : Nat) :
    utf8.first a = utf8.as ∨ utf8.first a = utf8.xx ∨ utf8.first a = utf8.s1 ∨
    utf8.first a = utf8.s2 ∨ utf8.first a = utf8.s3 ∨ utf8.first a = utf8.s4 ∨
    utf8.first a = utf8.s5 ∨ utf8.first a = utf8.s6 ∨ utf8.first a = utf8.s7 := by
  unfold utf8.first
  split_ifs <;> simp

theorem first_size_ge (a : Nat) (h : ¬ utf8.first a ≥ utf8.as) :
    2 ≤ utf8.first a &&& 7 ∧ utf8.first a &&& 7 ≤ 4 := by
  rcases first_cases a with h1 | h1 | h1 | h1 | h1 | h1 | h1 | h1 | h1 <;> rw [h1] at h ⊢ <;>
    first | (exfalso; revert h; decide) | decide

theorem getD_append_left (u v : GoString) (i : Nat) (h : i < u.length) :
    (u ++ v).getD i 0 = u.getD i 0 := by
  simp [List.getD_eq_getElem?_getD, List.getElem?_append_left h]

/-- A successful decoding reads only the bytes of the rune: bytes appended after them do not
change it. -/
theorem DecodeRuneInString_append (u v : GoString) (hu : u ≠ [])
    (h : utf8.DecodeRuneInString u ≠ (utf8.RuneError, 1)) :
    utf8.DecodeRuneInString (u ++ v) = utf8.DecodeRuneInString u := by
  have hpos : 0 < u.length := List.length_pos.mpr hu
  have hn : ¬ u.length < 1 := by omega
  have hn2 : ¬ (u ++ v).length < 1 := by rw [List.length_append]; omega
  have g0 := getD_append_left u v 0 hpos
  have hsz := first_size_ge (u.getD 0 0)
  unfold utf8.DecodeRuneInString at h ⊢
  simp only [hn, hn2, if_false, g0] at h ⊢
  generalize utf8.first (u.getD 0 0) = x at h hsz ⊢
  by_cases hx : x ≥ utf8.as
  · simp only [hx, if_true]
  · have hsz2 := hsz hx
    simp only [hx, if_false] at h ⊢
    generalize x &&& 7 = sz at h hsz2 ⊢
    by_cases hlt : u.length < sz
    · simp only [hlt, if_true] at h
      exact absurd rfl h
    · have hlt2 : ¬ (u ++ v).length < sz := by rw [List.length_append]; omega
      have g1 := getD_append_left u v 1 (by omega)
      simp only [hlt, hlt2, if_false, g1] at h ⊢
      generalize utf8.acceptRanges (x >>> 4) = acc at h ⊢
      by_cases ha : u.getD 1 0 < acc.1 ∨ acc.2 < u.getD 1 0
      · simp only [ha, if_true]
      · simp only [ha, if_false] at h ⊢
        by_cases h2 : sz ≤ 2
        · simp only [h2, if_true]
        · have g2 := getD_append_left u v 2 (by omega)
          simp only [h2, if_false, g2] at h ⊢
          by_cases hb : u.getD 2 0 < utf8.locb ∨ utf8.hicb < u.getD 2 0
          · simp only [hb, if_true]
          · simp only [hb, if_false] at h ⊢
            by_cases h3 : sz ≤ 3
            · simp only [h3, if_true]
            · have g3 := getD_append_left u v 3 (by omega)
              simp only [h3, if_false, g3] at h ⊢

theorem DecodeRuneInString_ascii (c : Nat) (t : GoString) (hc : c < 0x80) :
    utf8.DecodeRuneInString (c :: t) = (c, 1) := by
  unfold utf8.DecodeRuneInString
  have h1 : utf8.first c = utf8.as := by unfold utf8.first; simp [hc]
  simp [h1, utf8.as]

theorem lastRuneStart_le (s : GoString) (lim : Int) (fuel : Nat) (start : Int) :
    utf8.lastRuneStart s lim fuel start ≤ start := by
  induction fuel generalizing start with
  | zero => simp [utf8.lastRuneStart]
  | succ k ih =>
    unfold utf8.lastRuneStart
    split_ifs
    · exact le_refl _
    · have := ih (start - 1); omega
    · exact le_refl _

/-- The backward scan needs no more than `UTFMax` tests: it starts at `len(s) - 2` and stops
below `lim ≥ len(s) - UTFMax`, so more fuel gives the same result. -/
theorem lastRuneStart_fuel (s : GoString) (lim : Int) (fuel extra : Nat) (start : Int)
    (h : start - lim < fuel) :
    utf8.lastRuneStart s lim (fuel + extra) start = utf8.lastRuneStart s lim fuel start := by
  induction fuel generalizing start with
  | zero =>
    have hlt : ¬ start ≥ lim := by omega
    cases extra with
    | zero => rfl
    | succ k => simp [utf8.lastRuneStart, hlt]
  | succ k ih =>
    rw [show k + 1 + extra = (k + extra) + 1 by omega]
    unfold utf8.lastRuneStart
    split_ifs
    · rfl
    · exact ih (start - 1) (by omega)
    · rfl

/-- The three ways `DecodeLastRuneInString` returns on a non-empty string: a final ASCII byte,
the error rune of width 1, or the forward decoding of a proper suffix that it covers exactly. -/
theorem DecodeLastRuneInString_cases (s : GoString) (hs : s ≠ []) :
    (utf8.DecodeLastRuneInString s = (s.getD (s.length - 1) 0, 1) ∧
        s.getD (s.length - 1) 0 < utf8.RuneSelf) ∨
      utf8.DecodeLastRuneInString s = (utf8.RuneError, 1) ∨
      ∃ start, start < s.length ∧
        utf8.DecodeLastRuneInString s = utf8.DecodeRuneInString (s.drop start) ∧
        start + (utf8.DecodeRuneInString (s.drop start)).2 = s.length := by
  have hpos : 0 < s.length := List.length_pos.mpr hs
  have he : ¬ s.length = 0 := by omega
  unfold utf8.DecodeLastRuneInString
  simp only [he, if_false]
  by_cases hr : s.getD (s.length - 1) 0 < utf8.RuneSelf
  · left; simp only [hr, if_true, and_self]
  · right
    simp only [hr, if_false]
    generalize hlim : (if (s.length : Int) - utf8.UTFMax < 0 then (0 : Int)
      else (s.length : Int) - utf8.UTFMax) = lim
    have hle := lastRuneStart_le s lim utf8.UTFMax ((s.length : Int) - 1 - 1)
    generalize utf8.lastRuneStart s lim utf8.UTFMax ((s.length : Int) - 1 - 1) = start0 at hle ⊢
    generalize hst : (if start0 < 0 then 0 else start0.toNat) = start
    have hlt : start < s.length := by
      rw [← hst]; split_ifs <;> omega
    have htake : (s.drop start).take (s.length - start) = s.drop start :=
      List.take_of_length_le (by rw [List.length_drop])
    rw [htake]
    by_cases hne : start + (utf8.DecodeRuneInString (s.drop start)).2 ≠ s.length
    · left; rw [if_pos hne]
    · right
      rw [if_neg hne]
      exact ⟨start, hlt, rfl, not_not.mp hne⟩

theorem DecodeLastRuneInString_width (s : GoString) (hs : s ≠ []) :
    1 ≤ (utf8.DecodeLastRuneInString s).2 ∧ (utf8.DecodeLastRuneInString s).2 ≤ s.length := by
  have hpos : 0 < s.length := List.length_pos.mpr hs
  rcases DecodeLastRuneInString_cases s hs with ⟨h, _⟩ | h | ⟨start, hlt, h, hsum⟩
  · rw [h]; exact ⟨le_refl _, hpos⟩
  · rw [h]; exact ⟨le_refl _, hpos⟩
  · rw [h]; omega

theorem dropLeading_suffix (f : Nat → Bool) (fuel : Nat) (s : GoString) :
    dropLeading f fuel s <:+ s := by
  induction fuel generalizing s with
  | zero => exact List.suffix_refl s
  | succ k ih =>
    unfold dropLeading
    split_ifs
    · exact List.suffix_refl s
    · exact (ih _).trans (List.drop_suffix _ s)
    · exact List.suffix_refl s

theorem dropLeading_done (f : Nat → Bool) (fuel : Nat) (s : GoString)
    (hfuel : s.length ≤ fuel) :
    dropLeading f fuel s = [] ∨
      f (utf8.DecodeRuneInString (dropLeading f fuel s)).1 = false := by
  induction fuel generalizing s with
  | zero =>
    left
    have : s = [] := List.length_eq_zero.mp (by omega)
    simp [dropLeading, this]
  | succ k ih =>
    unfold dropLeading
    by_cases hs : s = []
    · left; simp [hs]
    · rw [if_neg hs]
      by_cases hf : f (utf8.DecodeRuneInString s).1 = true
      · rw [if_pos hf]
        apply ih
        have := DecodeRuneInString_width_pos s hs
        have hl : 0 < s.length := List.length_pos.mpr hs
        rw [List.length_drop]; omega
      · rw [if_neg hf]
        right; simpa using hf

theorem dropLeading_id (f : Nat → Bool) (fuel : Nat) (s : GoString)
    (h : s = [] ∨ f (utf8.DecodeRuneInString s).1 = false) :
    dropLeading f fuel s = s := by
  cases fuel with
  | zero => rfl
  | succ k =>
    unfold dropLeading
    rcases h with h | h
    · rw [if_pos h]
    · by_cases hs : s = []
      · rw [if_pos hs]
      · rw [if_neg hs, if_neg (by simp [h])]

theorem dropTrailing_pre (f : Nat → Bool) (fuel : Nat) (s : GoString) :
    dropTrailing f fuel s <+: s := by
  induction fuel generalizing s with
  | zero => exact List.prefix_refl s
  | succ k ih =>
    unfold dropTrailing
    split_ifs
    · exact List.prefix_refl s
    · exact (ih _).trans (List.take_prefix _ s)
    · exact List.prefix_refl s

theorem dropTrailing_done (f : Nat → Bool) (fuel : Nat) (s : GoString)
    (hfuel : s.length ≤ fuel) :
    dropTrailing f fuel s = [] ∨
      f (utf8.DecodeLastRuneInString (dropTrailing f fuel s)).1 = false := by
  induction fuel generalizing s with
  | zero =>
    left
    have : s = [] := List.length_eq_zero.mp (by omega)
    simp [dropTrailing, this]
  | succ k ih =>
    unfold dropTrailing
    by_cases hs : s = []
    · left; simp [hs]
    · rw [if_neg hs]
      by_cases hf : f (utf8.DecodeLastRuneInString s).1 = true
      · rw [if_pos hf]
        apply ih
        have := DecodeLastRuneInString_width s hs
        rw [List.length_take]; omega
      · rw [if_neg hf]
        right; simpa using hf

theorem dropTrailing_id (f : Nat → Bool) (fuel : Nat) (s : GoString)
    (h : s = [] ∨ f (utf8.DecodeLastRuneInString s).1 = false) :
    dropTrailing f fuel s = s := by
  cases fuel with
  | zero => rfl
  | succ k =>
    unfold dropTrailing
    rcases h with h | h
    · rw [if_pos h]
    · by_cases hs : s = []
      · rw [if_pos hs]
      · rw [if_neg hs, if_neg (by simp [h])]

/-! ### The trimming functions of `strings` return what the loops on slices return -/

theorem first_ne_as (b : Nat) (hb : ¬ b < 0x80) : utf8.first b ≠ utf8.as := by
  unfold utf8.first
  rw [if_neg hb]
  split_ifs <;> decide

theorem first_as_lt (b : Nat) (h : utf8.first b ≥ utf8.as) (h2 : utf8.first b &&& 1 = 0) :
    b < 0x80 := by
  by_contra hb
  have hne := first_ne_as b hb
  rcases first_cases b with h1 | h1 | h1 | h1 | h1 | h1 | h1 | h1 | h1
  · exact hne h1
  all_goals
    rw [h1] at h h2
    first | (revert h; decide) | (revert h2; decide)

theorem first_lead_ge (b : Nat) (h : ¬ utf8.first b ≥ utf8.as) : 0xC2 ≤ b := by
  unfold utf8.first at h
  by_contra hb
  by_cases h1 : b < 0x80
  · rw [if_pos h1] at h; exact h (by decide)
  · rw [if_neg h1, if_pos (by omega)] at h; exact h (by decide)

theorem acceptRanges_bounds (b : Nat) (h : ¬ utf8.first b ≥ utf8.as) :
    0x80 ≤ (utf8.acceptRanges (utf8.first b >>> 4)).1 ∧
      (utf8.acceptRanges (utf8.first b >>> 4)).2 ≤ 0xBF := by
  rcases first_cases b with h1 | h1 | h1 | h1 | h1 | h1 | h1 | h1 | h1 <;> rw [h1] at h ⊢ <;>
    first | (exfalso; revert h; decide) | decide

theorem DecodeRuneInString_width_le_length (s : GoString) :
    (utf8.DecodeRuneInString s).2 ≤ s.length := by
  unfold utf8.DecodeRuneInString
  by_cases hn : s.length < 1
  · simp [hn]
  · simp only [hn, if_false]
    by_cases hx : utf8.first (s.getD 0 0) ≥ utf8.as
    · simp only [hx, if_true]; omega
    · have hsz := first_size_ge (s.getD 0 0) hx
      simp only [hx, if_false]
      generalize utf8.first (s.getD 0 0) &&& 7 = sz at hsz ⊢
      split_ifs <;> simp only <;> omega

/-- A decoding other than the error rune of width 1 starts at an ASCII byte or at a leading
byte, never at a continuation byte. -/
theorem DecodeRuneInString_valid_head (s : GoString) (hs : s ≠ [])
    (h : utf8.DecodeRuneInString s ≠ (utf8.RuneError, 1)) :
    s.getD 0 0 < 0x80 ∨ 0xC0 ≤ s.getD 0 0 := by
  have hn : ¬ s.length < 1 := by
    have := List.length_pos.mpr hs; omega
  by_cases hx : utf8.first (s.getD 0 0) ≥ utf8.as
  · left
    apply first_as_lt _ hx
    by_contra h2
    apply h
    unfold utf8.DecodeRuneInString
    simp only [hn, if_false, hx, if_true, h2]
  · right
    have := first_lead_ge _ hx
    omega

/-- A byte followed by nothing or by a byte that is not a continuation byte decodes with
width 1. -/
theorem DecodeRuneInString_width_one (b : Nat) (v : GoString)
    (hv : v = [] ∨ v.getD 0 0 < 0x80 ∨ 0xC0 ≤ v.getD 0 0) :
    (utf8.DecodeRuneInString (b :: v)).2 = 1 := by
  unfold utf8.DecodeRuneInString
  simp only [List.length_cons, List.getD_cons_zero, List.getD_cons_succ]
  rw [if_neg (by omega)]
  by_cases hx : utf8.first b ≥ utf8.as
  · simp only [hx, if_true]
  · have hsz := first_size_ge b hx
    have hacc := acceptRanges_bounds b hx
    simp only [hx, if_false]
    generalize utf8.first b &&& 7 = sz at hsz ⊢
    generalize utf8.acceptRanges (utf8.first b >>> 4) = acc at hacc ⊢
    by_cases hlt : v.length + 1 < sz
    · simp only [hlt, if_true]
    · have hne : v ≠ [] := by
        intro e; rw [e] at hlt; simp at hlt; omega
      have hv2 : v.getD 0 0 < 0x80 ∨ 0xC0 ≤ v.getD 0 0 := hv.resolve_left hne
      have hr : v.getD 0 0 < acc.1 ∨ acc.2 < v.getD 0 0 := by omega
      simp only [hlt, if_false, hr, if_true]

theorem dropLeading_length_le (f : Nat → Bool) (fuel : Nat) (s : GoString) :
    (dropLeading f fuel s).length ≤ s.length :=
  (dropLeading_suffix f fuel s).length_le

theorem dropLeading_eq_drop (f : Nat → Bool) (fuel : Nat) (s : GoString) :
    s.drop (s.length - (dropLeading f fuel s).length) =
      dropLeading f fuel s := by
  obtain ⟨p, hp⟩ := dropLeading_suffix f fuel s
  generalize dropLeading f fuel s = t at hp
  rw [← hp]
  simp

/-- The index `indexFunc` finds is where the string left by the loop on slices begins. -/
theorem indexFuncLoop_eq (f : Nat → Bool) (fuel : Nat) (s : GoString) (i : Nat)
    (hfuel : s.length ≤ fuel) :
    strings.indexFuncLoop f false fuel s i =
      if dropLeading f fuel s = [] then -1
      else ((i + (s.length - (dropLeading f fuel s).length) : Nat) : Int) := by
  induction fuel generalizing s i with
  | zero =>
    have : s = [] := List.length_eq_zero.mp (by omega)
    simp [strings.indexFuncLoop, dropLeading, this]
  | succ k ih =>
    unfold strings.indexFuncLoop dropLeading
    by_cases hs : s = []
    · simp [hs]
    · rw [if_neg hs, if_neg hs]
      by_cases hf : f (utf8.DecodeRuneInString s).1 = true
      · have hw := DecodeRuneInString_width_pos s hs
        have hw2 := DecodeRuneInString_width_le_length s
        have hlen : (s.drop (utf8.DecodeRuneInString s).2).length ≤ k := by
          rw [List.length_drop]; omega
        rw [if_neg (by simp [hf]), if_pos hf, ih _ _ hlen]
        have hle := dropLeading_length_le f k (s.drop (utf8.DecodeRuneInString s).2)
        rw [List.length_drop] at hle ⊢
        split_ifs
        · rfl
        · congr 1; omega
      · rw [if_pos (by simp [hf]), if_neg hf, if_neg hs]
        simp

theorem TrimLeftFunc_eq (s : GoString) (f : Nat → Bool) :
    strings.TrimLeftFunc s f = dropLeading f s.length s := by
  unfold strings.TrimLeftFunc strings.indexFunc
  simp only [indexFuncLoop_eq f s.length s 0 (le_refl _)]
  by_cases ht : dropLeading f s.length s = []
  · simp [ht]
  · rw [if_neg ht]
    rw [if_neg (by omega)]
    simp only [Nat.zero_add, Int.toNat_ofNat]
    exact dropLeading_eq_drop f s.length s

theorem drop_eq_getD_cons (u : GoString) (k : Nat) (h : k < u.length) :
    u.drop k = u.getD k 0 :: u.drop (k + 1) := by
  rw [List.getD_eq_getElem u 0 h]
  exact List.drop_eq_getElem_cons h

/-- The rune `DecodeLastRuneInString` returns is the error rune of width 1 or starts at a byte
that is not a continuation byte. -/
theorem DecodeLastRuneInString_head (s : GoString) (hs : s ≠ []) :
    utf8.DecodeLastRuneInString s = (utf8.RuneError, 1) ∨
      s.getD (s.length - (utf8.DecodeLastRuneInString s).2) 0 < 0x80 ∨
      0xC0 ≤ s.getD (s.length - (utf8.DecodeLastRuneInString s).2) 0 := by
  rcases DecodeLastRuneInString_cases s hs with ⟨h, hlt⟩ | h | ⟨start, hlt, h, hsum⟩
  · right; left
    rw [h]
    exact hlt
  · exact Or.inl h
  · by_cases hd : utf8.DecodeRuneInString (s.drop start) = (utf8.RuneError, 1)
    · left; rw [h, hd]
    · right
      have hne : s.drop start ≠ [] := by
        intro e
        have := congrArg List.length e
        rw [List.length_drop] at this
        simp at this
        omega
      have hv := DecodeRuneInString_valid_head (s.drop start) hne hd
      rw [drop_eq_getD_cons s start hlt, List.getD_cons_zero] at hv
      have hidx : s.length - (utf8.DecodeLastRuneInString s).2 = start := by
        rw [h]; omega
      rw [hidx]
      exact hv

/-- Forward decoding at the place where `DecodeLastRuneInString` found the last rune of `u`
gives the same width, also when bytes `v` follow, provided that after an error rune the
bytes that follow do not begin with a continuation byte. -/
theorem DecodeLastRuneInString_forward (u v : GoString) (hu : u ≠ [])
    (hv : utf8.DecodeLastRuneInString u = (utf8.RuneError, 1) →
      v = [] ∨ v.getD 0 0 < 0x80 ∨ 0xC0 ≤ v.getD 0 0) :
    (if u.getD (u.length - (utf8.DecodeLastRuneInString u).2) 0 ≥ utf8.RuneSelf then
        (utf8.DecodeRuneInString ((u ++ v).drop (u.length - (utf8.DecodeLastRuneInString u).2))).2
      else 1) = (utf8.DecodeLastRuneInString u).2 := by
  have hpos : 0 < u.length := List.length_pos.mpr hu
  have herr : ∀ k, k + 1 = u.length →
      (v = [] ∨ v.getD 0 0 < 0x80 ∨ 0xC0 ≤ v.getD 0 0) →
      (utf8.DecodeRuneInString ((u ++ v).drop k)).2 = 1 := by
    intro k hk hv2
    rw [List.drop_append_of_le_length (by omega), drop_eq_getD_cons u k (by omega),
      List.drop_of_length_le (by omega)]
    exact DecodeRuneInString_width_one _ v hv2
  rcases DecodeLastRuneInString_cases u hu with ⟨h, hlt⟩ | h | ⟨start, hlt, h, hsum⟩
  · rw [h]
    simp only
    rw [if_neg (by omega)]
  · have hv2 := hv h
    rw [h]
    simp only
    split_ifs
    · exact herr (u.length - 1) (by omega) hv2
    · rfl
  · have hidx : u.length - (utf8.DecodeLastRuneInString u).2 = start := by
      rw [h]; omega
    rw [hidx]
    by_cases hd : utf8.DecodeRuneInString (u.drop start) = (utf8.RuneError, 1)
    · have h2 : utf8.DecodeLastRuneInString u = (utf8.RuneError, 1) := by rw [h, hd]
      have hv2 := hv h2
      rw [h2]
      simp only
      rw [hd] at hsum
      simp only at hsum
      split_ifs
      · exact herr start hsum hv2
      · rfl
    · have hne : u.drop start ≠ [] := by
        intro e
        have := congrArg List.length e
        rw [List.length_drop] at this
        simp at this
        omega
      split_ifs with hc
      · rw [List.drop_append_of_le_length (by omega),
          DecodeRuneInString_append _ v hne hd, h]
      · rw [h, drop_eq_getD_cons u start hlt,
          DecodeRuneInString_ascii _ _ (by unfold utf8.RuneSelf at hc; omega)]

/-- The index `lastIndexFunc` finds is where the last rune of the string left by the loop on
slices begins. -/
theorem lastIndexFuncLoop_eq (f : Nat → Bool) (s : GoString) (fuel i : Nat)
    (hi : i ≤ s.length) (hfuel : i ≤ fuel) :
    strings.lastIndexFuncLoop s f false fuel i =
      if dropTrailing f fuel (s.take i) = [] then -1
      else (((dropTrailing f fuel (s.take i)).length -
        (utf8.DecodeLastRuneInString (dropTrailing f fuel (s.take i))).2 : Nat) :
          Int) := by
  induction fuel generalizing i with
  | zero =>
    have : i = 0 := by omega
    simp [strings.lastIndexFuncLoop, dropTrailing, this]
  | succ k ih =>
    unfold strings.lastIndexFuncLoop dropTrailing
    by_cases h0 : i > 0
    · have hlen : (s.take i).length = i := by rw [List.length_take]; omega
      have hne : s.take i ≠ [] := by
        intro e
        rw [e] at hlen
        simp at hlen
        omega
      have hw := DecodeLastRuneInString_width (s.take i) hne
      rw [if_pos h0, if_neg hne]
      by_cases hf : f (utf8.DecodeLastRuneInString (s.take i)).1 = true
      · rw [if_neg (by simp [hf]), if_pos hf, hlen, List.take_take,
          ih (i - (utf8.DecodeLastRuneInString (s.take i)).2) (by omega) (by omega)]
        rw [show min (i - (utf8.DecodeLastRuneInString (s.take i)).2) i =
          i - (utf8.DecodeLastRuneInString (s.take i)).2 by omega]
      · rw [if_pos (by simp [hf]), if_neg hf, if_neg hne, hlen]
    · have : i = 0 := by omega
      simp [this]

/-- What the loop on slices removes from the end does not begin with a continuation byte,
unless `f` holds of the error rune. -/
theorem dropTrailing_tail (f : Nat → Bool) (fuel : Nat) (s : GoString) :
    ∃ v, s = dropTrailing f fuel s ++ v ∧
      (v = [] ∨ (v.getD 0 0 < 0x80 ∨ 0xC0 ≤ v.getD 0 0) ∨ f utf8.RuneError = true) := by
  induction fuel generalizing s with
  | zero => exact ⟨[], by simp [dropTrailing], Or.inl rfl⟩
  | succ k ih =>
    unfold dropTrailing
    by_cases hs : s = []
    · rw [if_pos hs]
      exact ⟨[], by simp, Or.inl rfl⟩
    · rw [if_neg hs]
      by_cases hf : f (utf8.DecodeLastRuneInString s).1 = true
      · rw [if_pos hf]
        have hw := DecodeLastRuneInString_width s hs
        obtain ⟨v, hv, hinv⟩ := ih (s.take (s.length - (utf8.DecodeLastRuneInString s).2))
        refine ⟨v ++ s.drop (s.length - (utf8.DecodeLastRuneInString s).2), ?_, ?_⟩
        · rw [← List.append_assoc, ← hv, List.take_append_drop]
        · by_cases hr : f utf8.RuneError = true
          · exact Or.inr (Or.inr hr)
          · right; left
            by_cases hvn : v = []
            · rw [hvn, List.nil_append,
                drop_eq_getD_cons s _ (by omega), List.getD_cons_zero]
              rcases DecodeLastRuneInString_head s hs with h2 | h2
              · rw [h2] at hf; exact absurd hf hr
              · exact h2
            · obtain ⟨a, t, rfl⟩ := List.exists_cons_of_ne_nil hvn
              rcases hinv with h1 | h1 | h1
              · exact absurd h1 hvn
              · simpa using h1
              · exact absurd h1 hr
      · rw [if_neg hf]
        exact ⟨[], by simp, Or.inl rfl⟩

/-- The function `strings.TrimRightFunc`, computed through `lastIndexFunc` and a forward
decoding, returns what the loop on slices returns. -/
theorem TrimRightFunc_eq (s : GoString) (f : Nat → Bool) :
    strings.TrimRightFunc s f = dropTrailing f s.length s := by
  unfold strings.TrimRightFunc strings.lastIndexFunc
  simp only [lastIndexFuncLoop_eq f s s.length s.length (le_refl _) (le_refl _), List.take_length]
  obtain ⟨v, hv, hinv⟩ := dropTrailing_tail f s.length s
  have hdone := dropTrailing_done f s.length s (le_refl _)
  generalize dropTrailing f s.length s = u at hv hinv hdone ⊢
  by_cases hu : u = []
  · simp [hu]
  · have hf : f (utf8.DecodeLastRuneInString u).1 = false := hdone.resolve_left hu
    have hw := DecodeLastRuneInString_width u hu
    have hfw := DecodeLastRuneInString_forward u v hu (by
      intro herr
      rw [herr] at hf
      rcases hinv with h1 | h1 | h1
      · exact Or.inl h1
      · exact Or.inr h1
      · rw [hf] at h1; exact absurd h1 (by simp))
    rw [if_neg hu]
    have hget : s.getD (u.length - (utf8.DecodeLastRuneInString u).2) 0 =
        u.getD (u.length - (utf8.DecodeLastRuneInString u).2) 0 := by
      rw [hv]; exact getD_append_left u v _ (by omega)
    simp only [Int.toNat_ofNat, hget]
    rw [← hv] at hfw
    by_cases hc : u.getD (u.length - (utf8.DecodeLastRuneInString u).2) 0 ≥ utf8.RuneSelf
    · rw [if_pos hc] at hfw
      rw [if_pos ⟨by omega, hc⟩, hfw]
      have : ((u.length - (utf8.DecodeLastRuneInString u).2 : Nat) : Int) +
          ((utf8.DecodeLastRuneInString u).2 : Int) = (u.length : Int) := by omega
      rw [this, Int.toNat_ofNat, hv, List.take_left]
    · rw [if_neg hc] at hfw
      rw [if_neg (fun h => hc h.2)]
      have : ((u.length - (utf8.DecodeLastRuneInString u).2 : Nat) : Int) + 1 =
          (u.length : Int) := by omega
      rw [this, Int.toNat_ofNat, hv, List.take_left]

theorem IsSpace_ascii (c : Nat) (hc : c < 0x80) :
    unicode.IsSpace c = !(strings.asciiSpace c == 0) := by
  unfold unicode.IsSpace strings.asciiSpace unicode.MaxLatin1
  rw [if_pos (by omega)]
  by_cases h : c = 0x09 ∨ c = 0x0A ∨ c = 0x0B ∨ c = 0x0C ∨ c = 0x0D ∨ c = 0x20
  · rw [if_pos h]
    rcases h with h | h | h | h | h | h <;> subst h <;> decide
  · rw [if_neg h]
    have h85 : c ≠ 0x85 := by omega
    have hA0 : c ≠ 0xA0 := by omega
    simp only [not_or] at h
    simp [h.1, h.2.1, h.2.2.1, h.2.2.2.1, h.2.2.2.2.1, h.2.2.2.2.2, h85, hA0]

theorem DecodeLastRuneInString_ascii (w : GoString) (hw : w ≠ [])
    (hc : w.getD (w.length - 1) 0 < utf8.RuneSelf) :
    utf8.DecodeLastRuneInString w = (w.getD (w.length - 1) 0, 1) := by
  have hpos : 0 < w.length := List.length_pos.mpr hw
  unfold utf8.DecodeLastRuneInString
  simp only
  rw [if_neg (by omega), if_pos hc]

theorem getD_slice (s : GoString) (start stop i : Nat) (h1 : start + i < stop) :
    ((s.take stop).drop start).getD i 0 = s.getD (start + i) 0 := by
  simp only [List.getD_eq_getElem?_getD, List.getElem?_drop, List.getElem?_take, h1, if_true]

theorem length_slice (s : GoString) (start stop : Nat) (h2 : stop ≤ s.length) :
    ((s.take stop).drop start).length = stop - start := by
  rw [List.length_drop, List.length_take]; omega

theorem take_slice (s : GoString) (start stop : Nat) (h1 : start < stop) :
    ((s.take stop).drop start).take (stop - start - 1) = (s.take (stop - 1)).drop start := by
  rw [List.drop_take, List.drop_take, List.take_take]
  congr 1
  omega

theorem trimSpaceStop_ge (s : GoString) (start fuel stop : Nat) (h : stop ≤ start) :
    strings.trimSpaceStop s start fuel stop = (s.take stop).drop start := by
  cases fuel with
  | zero => rfl
  | succ k =>
    unfold strings.trimSpaceStop
    rw [if_neg (by omega)]

/-- The second loop of `TrimSpace`, entered with a byte that is not ASCII white space at
`start`, returns what the loop on slices returns for `s[start:stop]`. -/
theorem trimSpaceStop_eq (s : GoString) (start fuel stop : Nat) (h1 : start < stop)
    (h2 : stop ≤ s.length) (hfuel : stop - start ≤ fuel)
    (hsp : strings.asciiSpace (s.getD start 0) = 0) :
    strings.trimSpaceStop s start fuel stop =
      dropTrailing unicode.IsSpace (stop - start) ((s.take stop).drop start) := by
  induction fuel generalizing stop with
  | zero => omega
  | succ k ih =>
    have hlen := length_slice s start stop h2
    have hne : (s.take stop).drop start ≠ [] := by
      intro e
      rw [e] at hlen
      simp at hlen
      omega
    have hlast : ((s.take stop).drop start).getD (((s.take stop).drop start).length - 1) 0 =
        s.getD (stop - 1) 0 := by
      rw [hlen, getD_slice s start stop _ (by omega)]
      congr 1
      omega
    unfold strings.trimSpaceStop
    rw [if_pos h1]
    by_cases hr : s.getD (stop - 1) 0 ≥ utf8.RuneSelf
    · rw [if_pos hr, TrimRightFunc_eq, hlen]
    · rw [if_neg hr]
      have hdec := DecodeLastRuneInString_ascii _ hne (by rw [hlast]; omega)
      rw [hlast] at hdec
      have hasc : s.getD (stop - 1) 0 < 0x80 := by unfold utf8.RuneSelf at hr; omega
      obtain ⟨m, hm⟩ : ∃ m, stop - start = m + 1 := ⟨stop - start - 1, by omega⟩
      rw [hm]
      unfold dropTrailing
      rw [if_neg hne, hdec]
      simp only
      rw [IsSpace_ascii _ hasc]
      by_cases ha : strings.asciiSpace (s.getD (stop - 1) 0) = 0
      · have hb : (!(strings.asciiSpace (s.getD (stop - 1) 0) == 0)) = false := by rw [ha]; rfl
        rw [if_pos ha, hb]
        rfl
      · rw [if_neg ha]
        have hlt : start < stop - 1 := by
          by_contra hcon
          have : stop - 1 = start := by omega
          rw [this] at ha
          exact ha hsp
        rw [ih (stop - 1) hlt (by omega) (by omega)]
        have hb : (!(strings.asciiSpace (s.getD (stop - 1) 0) == 0)) = true := by simpa using ha
        rw [if_pos hb, hlen, hm, Nat.add_sub_cancel]
        have := take_slice s start stop h1
        rw [hm, Nat.add_sub_cancel] at this
        rw [this]
        congr 1
        omega

theorem dropLeading_succ (f : Nat → Bool) (k : Nat) (s : GoString) :
    dropLeading f (k + 1) s =
      if s = [] then s
      else if f (utf8.DecodeRuneInString s).1 then
        dropLeading f k (s.drop (utf8.DecodeRuneInString s).2)
      else s := by
  rw [dropLeading]

/-- The first loop of `TrimSpace` and what follows it return what the two loops on slices
return for `s[start:]`. -/
theorem trimSpaceStart_eq (s : GoString) (fuel start : Nat) (h1 : start ≤ s.length)
    (hfuel : s.length - start ≤ fuel) :
    strings.trimSpaceStart s fuel start =
      dropTrailing unicode.IsSpace
        (dropLeading unicode.IsSpace (s.drop start).length (s.drop start)).length
        (dropLeading unicode.IsSpace (s.drop start).length (s.drop start)) := by
  have hend : ∀ start2 fuel2, s.length ≤ start2 →
      strings.trimSpaceStop s start2 fuel2 s.length =
        dropTrailing unicode.IsSpace
          (dropLeading unicode.IsSpace (s.drop start2).length (s.drop start2)).length
          (dropLeading unicode.IsSpace (s.drop start2).length (s.drop start2)) := by
    intro start2 fuel2 hle
    rw [trimSpaceStop_ge s start2 fuel2 s.length hle, List.take_length,
      List.drop_of_length_le hle]
    rfl
  induction fuel generalizing start with
  | zero =>
    unfold strings.trimSpaceStart
    exact hend _ _ (by omega)
  | succ k ih =>
    unfold strings.trimSpaceStart
    by_cases hlt : start < s.length
    · rw [if_pos hlt]
      have hdrop := drop_eq_getD_cons s start hlt
      have hdl : (s.drop start).length = (s.drop (start + 1)).length + 1 := by
        rw [List.length_drop, List.length_drop]; omega
      by_cases hr : s.getD start 0 ≥ utf8.RuneSelf
      · rw [if_pos hr]
        unfold strings.TrimFunc
        rw [TrimRightFunc_eq, TrimLeftFunc_eq]
      · rw [if_neg hr]
        have hasc : s.getD start 0 < 0x80 := by unfold utf8.RuneSelf at hr; omega
        have hdec : utf8.DecodeRuneInString (s.drop start) = (s.getD start 0, 1) := by
          rw [hdrop]; exact DecodeRuneInString_ascii _ _ hasc
        have hne : s.drop start ≠ [] := by rw [hdrop]; simp
        by_cases ha : strings.asciiSpace (s.getD start 0) = 0
        · rw [if_pos ha, trimSpaceStop_eq s start s.length s.length hlt (le_refl _) (by omega) ha]
          have hid : dropLeading unicode.IsSpace (s.drop start).length (s.drop start)
              = s.drop start := by
            apply dropLeading_id
            right
            rw [hdec]
            simp only
            rw [IsSpace_ascii _ hasc, ha]
            rfl
          rw [hid, List.take_length, List.length_drop]
        · rw [if_neg ha, ih (start + 1) (by omega) (by omega)]
          have hsp : unicode.IsSpace (s.getD start 0) = true := by
            rw [IsSpace_ascii _ hasc]; simpa using ha
          have hstep : dropLeading unicode.IsSpace (s.drop start).length
              (s.drop start) = dropLeading unicode.IsSpace
                (s.drop (start + 1)).length (s.drop (start + 1)) := by
            rw [hdl, dropLeading_succ, if_neg hne, hdec]
            simp only
            rw [if_pos hsp, List.drop_drop]
          rw [hstep]
    · rw [if_neg hlt]
      exact hend _ _ (by omega)

/-- The function `strings.TrimSpace` returns `s` without its leading white space runes and then
without its trailing white space runes. -/
theorem TrimSpace_eq (s : GoString) :
    strings.TrimSpace s =
      dropTrailing unicode.IsSpace
        (dropLeading unicode.IsSpace s.length s).length
        (dropLeading unicode.IsSpace s.length s) := by
  unfold strings.TrimSpace
  rw [trimSpaceStart_eq s s.length 0 (by omega) (by omega), List.drop_zero]

/-! ### White space trimming -/

theorem TrimSpace_part (s : GoString) : strings.TrimSpace s <:+: s := by
  rw [TrimSpace_eq]
  exact (dropTrailing_pre _ _ _).isInfix.trans (dropLeading_suffix _ _ _).isInfix

theorem TrimSpace_subset (s : GoString) (b : Nat) (h : b ∈ strings.TrimSpace s) : b ∈ s :=
  (TrimSpace_part s).subset h

theorem startsWithSpace_TrimSpace (s : GoString) : startsWithSpace (strings.TrimSpace s) = false := by
  rw [TrimSpace_eq]
  have hdone := dropLeading_done unicode.IsSpace s.length s (le_refl _)
  generalize dropLeading unicode.IsSpace s.length s = t at hdone
  obtain ⟨v, hv⟩ : dropTrailing unicode.IsSpace t.length t <+: t := dropTrailing_pre _ _ _
  generalize dropTrailing unicode.IsSpace t.length t = u at hv
  unfold startsWithSpace
  by_cases hu : u = []
  · simp [hu]
  · by_cases hsp : unicode.IsSpace (utf8.DecodeRuneInString u).1 = true
    · exfalso
      have hne : utf8.DecodeRuneInString u ≠ (utf8.RuneError, 1) := by
        intro h
        rw [h, IsSpace_RuneError] at hsp
        exact absurd hsp (by simp)
      have happ := DecodeRuneInString_append u v hu hne
      rw [hv] at happ
      rcases hdone with h | h
      · rw [h] at hv; simp at hv; exact hu hv.1
      · rw [happ, hsp] at h; exact absurd h (by simp)
    · simp [hsp]

theorem endsWithSpace_TrimSpace (s : GoString) : endsWithSpace (strings.TrimSpace s) = false := by
  rw [TrimSpace_eq]
  generalize dropLeading unicode.IsSpace s.length s = t
  have hdone := dropTrailing_done unicode.IsSpace t.length t (le_refl _)
  unfold endsWithSpace
  rcases hdone with h | h
  · simp [h]
  · simp [h]

theorem TrimSpace_id (s : GoString) (h1 : startsWithSpace s = false)
    (h2 : endsWithSpace s = false) : strings.TrimSpace s = s := by
  have e1 : dropLeading unicode.IsSpace s.length s = s := by
    apply dropLeading_id
    unfold startsWithSpace at h1
    by_cases hs : s = []
    · exact Or.inl hs
    · right; simpa [hs] using h1
  rw [TrimSpace_eq, e1]
  apply dropTrailing_id
  unfold endsWithSpace at h2
  by_cases hs : s = []
  · exact Or.inl hs
  · right; simpa [hs] using h2

theorem Index_single_not_mem (q : Nat) (s : GoString) (h : q ∉ s) :
    strings.Index s [q] = -1 := by
  induction s with
  | nil => simp [strings.Index, List.isPrefixOf]
  | cons a t ih =>
    have ha : q ≠ a := fun e => h (by simp [e])
    have ht : q ∉ t := fun e => h (by simp [e])
    unfold strings.Index
    simp [List.isPrefixOf, ha, ih ht]

theorem Index_single_split (q : Nat) (pre post : GoString) (h : q ∉ pre) :
    strings.Index (pre ++ q :: post) [q] = pre.length := by
  induction pre with
  | nil => simp [strings.Index, List.isPrefixOf]
  | cons a t ih =>
    have ha : q ≠ a := fun e => h (by simp [e])
    have ht : q ∉ t := fun e => h (by simp [e])
    unfold strings.Index
    simp only [List.cons_append, List.isPrefixOf, beq_iff_eq, ha, Bool.false_and]
    rw [ih ht]
    simp
    omega

theorem countLoop_single (q : Nat) (fuel : Nat) (s : GoString) (n : Nat)
    (hfuel : s.length < fuel) :
    strings.countLoop [q] fuel s n = n + s.count q := by
  induction fuel generalizing s n with
  | zero => omega
  | succ k ih =>
    unfold strings.countLoop
    by_cases hq : q ∈ s
    · obtain ⟨pre, post, hsplit, hpre⟩ := List.eq_append_cons_of_mem hq
      have hidx := Index_single_split q pre post hpre
      rw [← hsplit] at hidx
      have hne : ¬ strings.Index s [q] = -1 := by rw [hidx]; omega
      rw [if_neg hne, hidx]
      have hdrop : s.drop ((pre.length : Int).toNat + [q].length) = post := by
        rw [hsplit]; simp
      rw [hdrop, ih post (n + 1) (by rw [hsplit] at hfuel; simp at hfuel; omega)]
      rw [hsplit, List.count_append, List.count_cons_self, List.count_eq_zero_of_not_mem hpre]
      omega
    · rw [if_pos (Index_single_not_mem q s hq), List.count_eq_zero_of_not_mem hq]
      rfl

theorem Count_single (q : Nat) (s : GoString) : strings.Count s [q] = s.count q := by
  unfold strings.Count
  rw [if_neg (by simp), countLoop_single q _ s 0 (by omega)]
  omega

theorem filter_ne_of_not_mem (q : Nat) (s : GoString) (h : q ∉ s) :
    s.filter (fun b => b != q) = s := by
  rw [List.filter_eq_self]
  intro a ha
  have : a ≠ q := fun e => h (e ▸ ha)
  simpa using this

theorem replaceLoop_single (q : Nat) (s : GoString) (k i start : Nat) (b : GoString)
    (hk : (s.drop start).count q = k) :
    strings.replaceLoop s [q] [] k i start b = b ++ (s.drop start).filter (fun c => c != q) := by
  induction k generalizing i start b with
  | zero =>
    unfold strings.replaceLoop
    rw [filter_ne_of_not_mem q _ (List.count_eq_zero.mp hk)]
  | succ k ih =>
    have hq : q ∈ s.drop start := List.count_pos_iff.mp (by omega)
    obtain ⟨pre, post, hsplit, hpre⟩ := List.eq_append_cons_of_mem hq
    have hidx := Index_single_split q pre post hpre
    rw [← hsplit] at hidx
    unfold strings.replaceLoop
    simp only [List.length_singleton, one_ne_zero, if_false, hidx, Int.toNat_ofNat,
      Nat.add_sub_cancel_left, List.append_nil]
    have hcount : (s.drop (start + pre.length + 1)).count q = k := by
      have h1 : s.drop (start + pre.length + 1) = post := by
        rw [show start + pre.length + 1 = start + (pre.length + 1) by omega, ← List.drop_drop,
          hsplit]
        simp
      rw [h1]
      rw [hsplit, List.count_append, List.count_cons_self,
        List.count_eq_zero_of_not_mem hpre] at hk
      omega
    rw [ih (i + 1) (start + pre.length + 1) _ hcount]
    have h1 : s.drop (start + pre.length + 1) = post := by
      rw [show start + pre.length + 1 = start + (pre.length + 1) by omega, ← List.drop_drop,
        hsplit]
      simp
    rw [h1, hsplit]
    simp [filter_ne_of_not_mem q pre hpre]

/-- Replacing every instance of a single byte by the empty string removes that byte. -/
theorem Replace_single (q : Nat) (s : GoString) :
    strings.Replace s [q] [] (-1) = s.filter (fun c => c != q) := by
  unfold strings.Replace
  rw [if_neg (by simp)]
  simp only [Count_single]
  by_cases hm : s.count q = 0
  · rw [if_pos hm, filter_ne_of_not_mem q s (List.count_eq_zero.mp hm)]
  · rw [if_neg hm]
    have hn : ((-1 : Int) < 0 ∨ ((s.count q : Nat) : Int) < -1) := Or.inl (by omega)
    rw [if_pos hn, replaceLoop_single q s _ 0 0 [] (by simp)]
    simp

theorem lit_data : lit "data:" = [100, 97, 116, 97, 58] := by decide

theorem lit_quote : lit "\"" = [quote] := by decide

theorem lit_empty : lit "" = [] := by decide

/-- With the cutset `data:` the call `strings.TrimLeft` drops the leading bytes that are one of
`d`, `a`, `t`, `:`. -/
theorem TrimLeft_data (s : GoString) :
    strings.TrimLeft s (lit "data:") = s.dropWhile inCutset := by
  unfold strings.TrimLeft
  by_cases hs : s = []
  · simp [hs]
  · have h1 : ¬ (s = [] ∨ lit "data:" = []) := by
      rw [lit_data]; simp [hs]
    have h2 : ¬ ((lit "data:").length = 1 ∧ (lit "data:").getD 0 0 < utf8.RuneSelf) := by
      rw [lit_data]; simp
    have h3 : strings.makeASCIISet (lit "data:") = some (lit "data:") := by decide
    rw [if_neg h1, if_neg h2, h3]
    rfl

/-- The three steps of `Normalize` in closed form. -/
theorem Normalize_eq (x : GoString) :
    Normalize x = strings.TrimSpace ((x.dropWhile inCutset).filter (fun c => c != quote)) := by
  unfold Normalize
  simp only [TrimLeft_data, lit_quote, lit_empty, Replace_single]

theorem quote_not_mem_Normalize (x : GoString) : quote ∉ Normalize x := by
  intro h
  rw [Normalize_eq] at h
  have := TrimSpace_subset _ _ h
  simp at this

theorem startsWithSpace_Normalize (x : GoString) : startsWithSpace (Normalize x) = false := by
  rw [Normalize_eq]; exact startsWithSpace_TrimSpace _

theorem endsWithSpace_Normalize (x : GoString) : endsWithSpace (Normalize x) = false := by
  rw [Normalize_eq]; exact endsWithSpace_TrimSpace _

theorem dropWhile_head_false (p : Nat → Bool) (s : GoString)
    (h : ∀ b, s.head? = some b → p b = false) : s.dropWhile p = s := by
  cases s with
  | nil => rfl
  | cons a t =>
    have := h a rfl
    simp [List.dropWhile, this]

/-! ### What `Normalize` returns and the remainder of the address -/

theorem Normalize_eq_dropTrailing (x : GoString) :
    Normalize x = dropTrailing unicode.IsSpace (remainder x).length (remainder x) := by
  rw [Normalize_eq, TrimSpace_eq]
  rfl

/-- What the loop on slices removes from the end of a string begins with a white space rune. -/
theorem dropTrailing_tail_space (fuel : Nat) (s : GoString) :
    ∃ v, s = dropTrailing unicode.IsSpace fuel s ++ v ∧
      (v = [] ∨ unicode.IsSpace (utf8.DecodeRuneInString v).1 = true) := by
  induction fuel generalizing s with
  | zero => exact ⟨[], by simp [dropTrailing], Or.inl rfl⟩
  | succ k ih =>
    unfold dropTrailing
    by_cases hs : s = []
    · rw [if_pos hs]; exact ⟨[], by simp, Or.inl rfl⟩
    · rw [if_neg hs]
      by_cases hf : unicode.IsSpace (utf8.DecodeLastRuneInString s).1 = true
      · rw [if_pos hf]
        have hw := DecodeLastRuneInString_width s hs
        obtain ⟨v, hv, hinv⟩ := ih (s.take (s.length - (utf8.DecodeLastRuneInString s).2))
        have hwsp : unicode.IsSpace (utf8.DecodeRuneInString
            (s.drop (s.length - (utf8.DecodeLastRuneInString s).2))).1 = true := by
          rcases DecodeLastRuneInString_cases s hs with ⟨h, hlt⟩ | h | ⟨start, hlt, h, hsum⟩
          · rw [h] at hf ⊢
            simp only at hf ⊢
            rw [drop_eq_getD_cons s _ (by omega),
              DecodeRuneInString_ascii _ _ (by unfold utf8.RuneSelf at hlt; omega)]
            exact hf
          · rw [h, IsSpace_RuneError] at hf; exact absurd hf (by simp)
          · have hidx : s.length - (utf8.DecodeLastRuneInString s).2 = start := by
              rw [h]; omega
            rw [hidx, ← h]; exact hf
        refine ⟨v ++ s.drop (s.length - (utf8.DecodeLastRuneInString s).2), ?_, Or.inr ?_⟩
        · rw [← List.append_assoc, ← hv, List.take_append_drop]
        · by_cases hvn : v = []
          · rw [hvn, List.nil_append]; exact hwsp
          · have hv2 : unicode.IsSpace (utf8.DecodeRuneInString v).1 = true :=
              hinv.resolve_left hvn
            have hne : utf8.DecodeRuneInString v ≠ (utf8.RuneError, 1) := by
              intro h
              rw [h, IsSpace_RuneError] at hv2
              exact absurd hv2 (by simp)
            rw [DecodeRuneInString_append v _ hvn hne]
            exact hv2
      · rw [if_neg hf]; exact ⟨[], by simp, Or.inl rfl⟩

/-- A white space rune found at the end of `a ++ r`, where `a` consists of ASCII bytes that are
not white space, lies within `r`. -/
theorem DecodeLastRuneInString_keeps_block (a r : GoString)
    (ha : ∀ b ∈ a, b < 0x80 ∧ unicode.IsSpace b = false)
    (h : unicode.IsSpace (utf8.DecodeLastRuneInString (a ++ r)).1 = true) :
    (utf8.DecodeLastRuneInString (a ++ r)).2 ≤ r.length := by
  have hs : a ++ r ≠ [] := by
    intro e
    rw [e] at h
    exact absurd h (by decide)
  have hmem : ∀ i, i < a.length → (a ++ r).getD i 0 ∈ a := by
    intro i hi
    rw [getD_append_left a r i hi, List.getD_eq_getElem a 0 hi]
    exact List.getElem_mem hi
  rcases DecodeLastRuneInString_cases (a ++ r) hs with ⟨h1, _⟩ | h1 | ⟨start, hlt, h1, hsum⟩
  · rw [h1] at h ⊢
    simp only at h ⊢
    by_cases hr : r = []
    · exfalso
      subst hr
      rw [List.append_nil] at h hs
      have hpos : 0 < a.length := List.length_pos.mpr hs
      have hm := hmem (a.length - 1) (by omega)
      rw [List.append_nil] at hm
      rw [(ha _ hm).2] at h
      exact absurd h (by simp)
    · have := List.length_pos.mpr hr
      omega
  · rw [h1, IsSpace_RuneError] at h; exact absurd h (by simp)
  · by_contra hcon
    have hst : start < a.length := by
      rw [h1, List.length_append] at *
      omega
    have hm := hmem start hst
    rw [h1, drop_eq_getD_cons (a ++ r) start hlt,
      DecodeRuneInString_ascii _ _ (ha _ hm).1, (ha _ hm).2] at h
    exact absurd h (by simp)

/-- The right trim of white space leaves in place a leading block of ASCII bytes that are not
white space. -/
theorem dropTrailing_keeps_block (fuel : Nat) (a r : GoString)
    (ha : ∀ b ∈ a, b < 0x80 ∧ unicode.IsSpace b = false) :
    ∃ r2, dropTrailing unicode.IsSpace fuel (a ++ r) = a ++ r2 := by
  induction fuel generalizing r with
  | zero => exact ⟨r, rfl⟩
  | succ k ih =>
    unfold dropTrailing
    by_cases hs : a ++ r = []
    · rw [if_pos hs]; exact ⟨r, rfl⟩
    · rw [if_neg hs]
      by_cases hf : unicode.IsSpace (utf8.DecodeLastRuneInString (a ++ r)).1 = true
      · rw [if_pos hf]
        have hle := DecodeLastRuneInString_keeps_block a r ha hf
        have htake : (a ++ r).take ((a ++ r).length - (utf8.DecodeLastRuneInString (a ++ r)).2)
            = a ++ r.take (r.length - (utf8.DecodeLastRuneInString (a ++ r)).2) := by
          rw [List.take_append_eq_append_take, List.length_append]
          congr 1
          · exact List.take_of_length_le (by omega)
          · congr 1; omega
        rw [htake]
        exact ih _
      · rw [if_neg hf]; exact ⟨r, rfl⟩

theorem data_block : ∀ b ∈ lit "data:", b < 0x80 ∧ unicode.IsSpace b = false := by
  rw [lit_data]
  intro b hb
  simp only [List.mem_cons, List.mem_singleton, List.not_mem_nil, or_false] at hb
  rcases hb with h | h | h | h | h <;> subst h <;> decide

/-- The trailing trim neither empties a string that the leading trim left non-empty nor touches
a leading `data:`. -/
theorem Normalize_remainder (x : GoString) :
    (Normalize x ≠ [] ↔ remainder x ≠ []) ∧
      (lit "data:").isPrefixOf (Normalize x) = (lit "data:").isPrefixOf (remainder x) := by
  have hdone : remainder x = [] ∨
      unicode.IsSpace (utf8.DecodeRuneInString (remainder x)).1 = false :=
    dropLeading_done unicode.IsSpace _ _ (le_refl _)
  rw [Normalize_eq_dropTrailing]
  generalize remainder x = t at hdone
  obtain ⟨v, hv, hinv⟩ := dropTrailing_tail_space t.length t
  constructor
  · constructor
    · intro h e
      rw [e] at h
      exact h (by simp [dropTrailing])
    · intro hne hu
      rw [hu, List.nil_append] at hv
      rw [← hv] at hinv
      rcases hinv with h | h
      · exact hne h
      · rcases hdone with h2 | h2
        · exact hne h2
        · rw [h] at h2; exact absurd h2 (by simp)
  · rw [Bool.eq_iff_iff, List.isPrefixOf_iff_prefix, List.isPrefixOf_iff_prefix]
    constructor
    · intro h
      exact h.trans (dropTrailing_pre _ _ _)
    · rintro ⟨r, hr⟩
      subst hr
      obtain ⟨r2, hr2⟩ :=
        dropTrailing_keeps_block (lit "data:" ++ r).length (lit "data:") r data_block
      rw [hr2]
      exact List.prefix_append _ _

theorem asciiSpace_lt (b : Nat) (h : strings.asciiSpace b ≠ 0) :
    b < 0x80 ∧ unicode.IsSpace b = true := by
  have hb : b < 0x80 := by
    unfold strings.asciiSpace at h
    by_contra hcon
    apply h
    rw [if_neg (by omega)]
  refine ⟨hb, ?_⟩
  rw [IsSpace_ascii b hb]
  simpa using h

/-- The leading trim drops a run of ASCII white space bytes and stops at an ASCII byte that is
not white space. -/
theorem dropLeading_spaces (sp : GoString) (c : Nat) (t : GoString) (fuel : Nat)
    (hsp : ∀ b ∈ sp, strings.asciiSpace b ≠ 0) (hc : c < 0x80)
    (hcs : unicode.IsSpace c = false) (hfuel : sp.length ≤ fuel) :
    dropLeading unicode.IsSpace fuel (sp ++ c :: t) = c :: t := by
  induction sp generalizing fuel with
  | nil =>
    apply dropLeading_id
    right
    rw [List.nil_append, DecodeRuneInString_ascii c t hc]
    exact hcs
  | cons b sp2 ih =>
    obtain ⟨k, rfl⟩ : ∃ k, fuel = k + 1 := ⟨fuel - 1, by simp at hfuel; omega⟩
    have hb := asciiSpace_lt b (hsp b (by simp))
    rw [dropLeading_succ, if_neg (by simp), List.cons_append,
      DecodeRuneInString_ascii b _ hb.1]
    simp only
    rw [if_pos hb.2, List.drop_one, List.tail_cons]
    exact ih k (fun b2 h2 => hsp b2 (by simp [h2])) (by simp at hfuel; omega)

/-- When an ASCII byte `c` follows the leading `d`, `a`, `t`, `:` bytes and a run of
double-quotes and ASCII white space, `remainder` begins with `c`. -/
theorem remainder_head (x : GoString) (c : Nat) (rest : GoString) (hc : c < 0x80)
    (h : (x.dropWhile inCutset).dropWhile quoteOrSpace = c :: rest) :
    remainder x = c :: rest.filter (fun b => b != quote) := by
  have hcq : quoteOrSpace c = false := by
    have := List.head_dropWhile_not quoteOrSpace (x.dropWhile inCutset)
      (by rw [h]; simp)
    simpa [h] using this
  have hq : (c != quote) = true := by
    unfold quoteOrSpace at hcq
    cases hqq : (c == quote)
    · simp [bne, hqq]
    · rw [hqq] at hcq; simp at hcq
  have hcs : unicode.IsSpace c = false := by
    rw [IsSpace_ascii c hc]
    unfold quoteOrSpace at hcq
    cases hqq : (strings.asciiSpace c == 0)
    · have : (strings.asciiSpace c != 0) = true := by simp [bne, hqq]
      rw [this] at hcq; simp at hcq
    · rfl
  have hsplit := List.takeWhile_append_dropWhile quoteOrSpace (x.dropWhile inCutset)
  rw [h] at hsplit
  unfold remainder
  rw [← hsplit, List.filter_append, List.filter_cons_of_pos (p := fun b => b != quote) hq]
  apply dropLeading_spaces _ c _ _ _ hc hcs
  · rw [List.length_append]; omega
  · intro b hb
    rw [List.mem_filter] at hb
    have hbq := List.mem_takeWhile_imp hb.1
    have hne : (b == quote) = false := by simpa using hb.2
    unfold quoteOrSpace at hbq
    rw [hne] at hbq
    simpa using hbq

/-! ## Properties of `Normalize` -/

/-- C7: the documented normalization examples hold: `Normalize` maps `data:"Qm123abc"`,
`Qm123abc` with two spaces on each side, and the clean `Qm123abc` to exactly `Qm123abc`. -/
theorem Normalize_examples :
    Normalize (lit "data:\"Qm123abc\"") = lit "Qm123abc" ∧
      Normalize (lit "  Qm123abc  ") = lit "Qm123abc" ∧
      Normalize (lit "Qm123abc") = lit "Qm123abc" := by
  decide

/-- C10: for every string `x`, `Normalize x` contains no double-quote byte and neither begins
nor ends with a white space rune; quotes next to white space leave nothing behind, as
`Normalize` of `" Qm "` (quotes included) is `Qm`. -/
theorem Normalize_clean (x : GoString) :
    quote ∉ Normalize x ∧ startsWithSpace (Normalize x) = false ∧
      endsWithSpace (Normalize x) = false ∧ Normalize (lit "\" Qm \"") = lit "Qm" := by
  exact ⟨quote_not_mem_Normalize x, startsWithSpace_Normalize x, endsWithSpace_Normalize x,
    by decide⟩

/-- C2, counterexample: `Normalize` is not idempotent.  On the input `"data:Qm` (a double-quote
before the token) the first pass returns `data:Qm` and the second pass returns `Qm`. -/
theorem Normalize_not_idempotent :
    Normalize (lit "\"data:Qm") = lit "data:Qm" ∧
      Normalize (Normalize (lit "\"data:Qm")) = lit "Qm" ∧
      Normalize (Normalize (lit "\"data:Qm")) ≠ Normalize (lit "\"data:Qm") := by
  decide

/-- C2, amended: whenever `Normalize x` does not begin with one of the bytes `d`, `a`, `t`,
`:`, a second pass changes nothing: `Normalize (Normalize x) = Normalize x`. -/
theorem Normalize_idempotent_of_head (x : GoString)
    (h : startsInCutset (Normalize x) = false) :
    Normalize (Normalize x) = Normalize x := by
  have hq := quote_not_mem_Normalize x
  have hs := startsWithSpace_Normalize x
  have he := endsWithSpace_Normalize x
  generalize Normalize x = y at h hq hs he
  rw [Normalize_eq]
  have h1 : y.dropWhile inCutset = y := by
    apply dropWhile_head_false
    intro b hb
    cases y with
    | nil => simp at hb
    | cons a t =>
      simp at hb
      subst hb
      exact h
  rw [h1, filter_ne_of_not_mem quote y hq]
  exact TrimSpace_id y hs he

/-- C2, the amended statement at `data:" Qm123abc "`. -/
theorem Normalize_idempotent_of_head_witness :
    startsInCutset (Normalize (lit "data:\" Qm123abc \"")) = false ∧
      Normalize (Normalize (lit "data:\" Qm123abc \"")) =
        Normalize (lit "data:\" Qm123abc \"") :=
  ⟨by decide, Normalize_idempotent_of_head (lit "data:\" Qm123abc \"") (by decide)⟩

/-- C3, the code at a failing input: for `s = abc`, stripping exactly the token `data:` would
make `Normalize ("data:" ++ s)` equal to `abc` (`s` without quotes, trimmed), but the handler's
`strings.TrimLeft` goes on past the token and also drops the `a` of `s`: the result is `bc`. -/
theorem Normalize_strips_past_token :
    Normalize (lit "data:" ++ lit "abc") = lit "bc" ∧
      strings.TrimSpace (strings.Replace (lit "abc") (lit "\"") (lit "") (-1)) = lit "abc" := by
  decide

/-- C6, the code at a failing input: `deadbeef` does not start with `data:`, has no
double-quote and no white space at either end, yet `Normalize` returns `eadbeef`. -/
theorem Normalize_changes_clean_input :
    (lit "data:").isPrefixOf (lit "deadbeef") = false ∧ quote ∉ lit "deadbeef" ∧
      startsWithSpace (lit "deadbeef") = false ∧ endsWithSpace (lit "deadbeef") = false ∧
      Normalize (lit "deadbeef") = lit "eadbeef" ∧ Normalize (lit "deadbeef") ≠ lit "deadbeef" := by
  decide

/-- C8, counterexample: `Normalize` of the empty `DocAddr` is empty, and `Normalize` of
` data:Qm` (a space before the token) is `data:Qm`, which begins with `data:`. -/
theorem Normalize_invariant_fails :
    Normalize (lit "") = lit "" ∧ Normalize (lit " data:Qm") = lit "data:Qm" ∧
      (lit "data:").isPrefixOf (Normalize (lit " data:Qm")) = true := by
  decide

/-- C8, amended: let `remainder DocAddr` be `DocAddr` with its leading `d`, `a`, `t`, `:` bytes
dropped, every double-quote removed and the leading white space dropped.  `Normalize DocAddr`
is non-empty exactly when the remainder is, and begins with `data:` exactly when the remainder
does.  In particular, when the byte that follows the leading `d`, `a`, `t`, `:` bytes and the
run of double-quotes and ASCII white space after them is an ASCII byte other than `d` (byte
100), `Normalize DocAddr` is non-empty and does not begin with `data:`. -/
theorem Normalize_invariant_iff (x : GoString) :
    (Normalize x ≠ [] ↔ remainder x ≠ []) ∧
      (lit "data:").isPrefixOf (Normalize x) = (lit "data:").isPrefixOf (remainder x) ∧
      ∀ c rest, (x.dropWhile inCutset).dropWhile quoteOrSpace = c :: rest → c < 0x80 → c ≠ 100 →
        Normalize x ≠ [] ∧ (lit "data:").isPrefixOf (Normalize x) = false := by
  obtain ⟨h1, h2⟩ := Normalize_remainder x
  refine ⟨h1, h2, ?_⟩
  intro c rest h hc hd
  have hr := remainder_head x c rest hc h
  constructor
  · rw [h1, hr]; simp
  · rw [h2, hr, lit_data]
    simp [List.isPrefixOf, Ne.symm hd]

/-- C8, the amended statement at the documented format `data:"Qm123"` and at the padded address
`  Qm123abc  ` (`Q` is the byte 81). -/
theorem Normalize_invariant_iff_witness :
    (Normalize (lit "data:\"Qm123\"") ≠ [] ∧
        (lit "data:").isPrefixOf (Normalize (lit "data:\"Qm123\"")) = false) ∧
      (Normalize (lit "  Qm123abc  ") ≠ [] ∧
        (lit "data:").isPrefixOf (Normalize (lit "  Qm123abc  ")) = false) ∧
      (Normalize (lit " data:Qm") ≠ [] ↔ remainder (lit " data:Qm") ≠ []) :=
  ⟨(Normalize_invariant_iff (lit "data:\"Qm123\"")).2.2 81 (lit "m123\"") (by decide) (by decide)
      (by decide),
    (Normalize_invariant_iff (lit "  Qm123abc  ")).2.2 81 (lit "m123abc  ") (by decide) (by decide)
      (by decide),
    (Normalize_invariant_iff (lit " data:Qm")).1⟩

/-! ## Properties of the handler -/

/-- C9: every response of the handler, the document or any failure body, has the status 200,
and `WrongResponse` uses the status 200 for every code and message. -/
theorem handler_status_ok {σ : Type} (env : Env σ) (did : GoString) :
    (handler env did).response.status = 200 ∧
      ∀ (code : Int) (message : GoString),
        (WrongResponse code message : Response σ).status = 200 := by
  refine ⟨?_, fun _ _ => rfl⟩
  unfold handler Bytes2Struct
  simp only
  split
  · rfl
  · split
    · rfl
    · split
      · rfl
      · split <;> rfl

/-- C1: the handler reports the code of the first failing stage, in the order ledger query
(-10000), metadata decode (-10001), content fetch (-10002), document decode (-10003), and calls
no collaborator of a later stage: its calls end with the failing one.  When the ledger query
fails the response is exactly code -10000 with the error message, the only call is the ledger
query, and no document is returned. -/
theorem handler_first_failure {σ : Type} (env : Env σ) (did : GoString) :
    (∀ e, env.InvokeBVMContract env.DIDRegistryContractAddr (lit "Resolve") [Arg.String did]
          = .error e →
        (handler env did).response = WrongResponse (-10000) e ∧
        (handler env did).calls =
          [Call.InvokeBVMContract env.DIDRegistryContractAddr (lit "Resolve") [Arg.String did]] ∧
        (handler env did).calls.any Call.isIPFSGet = false ∧
        (handler env did).calls.any Call.isJsonUnmarshal = false ∧
        (handler env did).response.doc? = none) ∧
    (∀ ret e, env.InvokeBVMContract env.DIDRegistryContractAddr (lit "Resolve") [Arg.String did]
          = .ok ret →
        env.gobDecode ret = .error e →
        (handler env did).response.code? = some (-10001) ∧
        (handler env did).calls =
          [Call.InvokeBVMContract env.DIDRegistryContractAddr (lit "Resolve") [Arg.String did],
            Call.gobDecode ret]) ∧
    (∀ ret info e,
        env.InvokeBVMContract env.DIDRegistryContractAddr (lit "Resolve") [Arg.String did]
          = .ok ret →
        env.gobDecode ret = .ok info →
        env.IPFSGet (lit "/ipfs/" ++ Normalize info.DocAddr) = .error e →
        (handler env did).response.code? = some (-10002) ∧
        (handler env did).calls =
          [Call.InvokeBVMContract env.DIDRegistryContractAddr (lit "Resolve") [Arg.String did],
            Call.gobDecode ret, Call.IPFSGet (lit "/ipfs/" ++ Normalize info.DocAddr)]) ∧
    (∀ ret info data e,
        env.InvokeBVMContract env.DIDRegistryContractAddr (lit "Resolve") [Arg.String did]
          = .ok ret →
        env.gobDecode ret = .ok info →
        env.IPFSGet (lit "/ipfs/" ++ Normalize info.DocAddr) = .ok data →
        env.jsonUnmarshal data = .error e →
        (handler env did).response.code? = some (-10003) ∧
        (handler env did).calls =
          [Call.InvokeBVMContract env.DIDRegistryContractAddr (lit "Resolve") [Arg.String did],
            Call.gobDecode ret, Call.IPFSGet (lit "/ipfs/" ++ Normalize info.DocAddr),
            Call.jsonUnmarshal data]) := by
  refine ⟨?_, ?_, ?_, ?_⟩
  · intro e h1
    simp [handler, h1, Call.isIPFSGet, Call.isJsonUnmarshal, Response.doc?, WrongResponse]
  · intro ret e h1 h2
    simp [handler, Bytes2Struct, h1, h2, Response.code?, WrongResponse]
  · intro ret info e h1 h2 h3
    simp [handler, Bytes2Struct, h1, h2, h3, Response.code?, WrongResponse]
  · intro ret info data e h1 h2 h3 h4
    simp [handler, Bytes2Struct, h1, h2, h3, h4, Response.code?, WrongResponse]

/-- C1 at four environments, each failing at one stage. -/
theorem handler_first_failure_witness :
    ((handler (exampleEnv 0) exampleDid).response =
        WrongResponse (-10000) (lit "rpc error: connection refused") ∧
      (handler (exampleEnv 0) exampleDid).calls.length = 1) ∧
    ((handler (exampleEnv 1) exampleDid).response.code? = some (-10001) ∧
      (handler (exampleEnv 1) exampleDid).calls.length = 2) ∧
    ((handler (exampleEnv 2) exampleDid).response.code? = some (-10002) ∧
      (handler (exampleEnv 2) exampleDid).calls.length = 3) ∧
    ((handler (exampleEnv 3) exampleDid).response.code? = some (-10003) ∧
      (handler (exampleEnv 3) exampleDid).calls.length = 4) := by
  have h0 := (handler_first_failure (exampleEnv 0) exampleDid).1 _ rfl
  have h1 := (handler_first_failure (exampleEnv 1) exampleDid).2.1 _ _ rfl rfl
  have h2 := (handler_first_failure (exampleEnv 2) exampleDid).2.2.1 _ _ _ rfl rfl rfl
  have h3 := (handler_first_failure (exampleEnv 3) exampleDid).2.2.2 _ _ _ _ rfl rfl rfl rfl
  refine ⟨⟨h0.1, ?_⟩, ⟨h1.1, ?_⟩, ⟨h2.1, ?_⟩, ⟨h3.1, ?_⟩⟩
  · rw [h0.2.1]; rfl
  · rw [h1.2]; rfl
  · rw [h2.2]; rfl
  · rw [h3.2]; rfl

/-- C4: when the ledger query returns bytes that decode to metadata `m`, the handler fetches
exactly the path `/ipfs/` followed by `Normalize m.DocAddr`; when the fetched bytes decode to
a document `d`, the response is `d` itself with status 200 and no code or message; and for
`DocAddr = data:"Qm123"` the fetched path is `/ipfs/Qm123`. -/
theorem handler_success {σ : Type} (env : Env σ) (did : GoString) (ret : Bytes) (m : Info)
    (h1 : env.InvokeBVMContract env.DIDRegistryContractAddr (lit "Resolve") [Arg.String did]
      = .ok ret)
    (h2 : env.gobDecode ret = .ok m) :
    (handler env did).calls.filter Call.isIPFSGet =
        [Call.IPFSGet (lit "/ipfs/" ++ Normalize m.DocAddr)] ∧
      (∀ data d, env.IPFSGet (lit "/ipfs/" ++ Normalize m.DocAddr) = .ok data →
        env.jsonUnmarshal data = .ok d →
        (handler env did).response = { status := 200, body := .doc d } ∧
        (handler env did).response.code? = none ∧
        (handler env did).response.message? = none) ∧
      (m.DocAddr = lit "data:\"Qm123\"" →
        (handler env did).calls.filter Call.isIPFSGet = [Call.IPFSGet (lit "/ipfs/Qm123")]) := by
  have hcalls : (handler env did).calls.filter Call.isIPFSGet =
      [Call.IPFSGet (lit "/ipfs/" ++ Normalize m.DocAddr)] := by
    simp only [handler, Bytes2Struct, h1, h2]
    split
    · simp [List.filter, Call.isIPFSGet]
    · split <;> simp [List.filter, Call.isIPFSGet]
  refine ⟨hcalls, ?_, ?_⟩
  · intro data d h3 h4
    simp [handler, Bytes2Struct, h1, h2, h3, h4, Response.code?, Response.message?, StatusOK]
  · intro hm
    rw [hcalls, hm]
    have : Normalize (lit "data:\"Qm123\"") = lit "Qm123" := by decide
    rw [this]
    decide

/-- C4 at the end-to-end scenario: `did:bitxhub:example`, `DocAddr = data:"Qm123"`. -/
theorem handler_success_witness :
    (handler (exampleEnv 4) exampleDid).calls.filter Call.isIPFSGet =
        [Call.IPFSGet (lit "/ipfs/Qm123")] ∧
      (handler (exampleEnv 4) exampleDid).response = { status := 200, body := .doc exampleDoc } := by
  have h := handler_success (exampleEnv 4) exampleDid [1, 2, 3] exampleInfo rfl rfl
  exact ⟨h.2.2 rfl, (h.2.1 [4, 5, 6] exampleDoc rfl rfl).1⟩

/-- C5, counterexample: when the gob decoder fails with the message `unexpected EOF`, the
message of the response is `gob decode err: unexpected EOF`, not the decoder's message. -/
theorem handler_wraps_gob_error :
    (exampleEnv 1).gobDecode [1, 2, 3] = .error (lit "unexpected EOF") ∧
      (handler (exampleEnv 1) exampleDid).response =
        WrongResponse (-10001) (lit "gob decode err: unexpected EOF") ∧
      (handler (exampleEnv 1) exampleDid).response.message? ≠ some (lit "unexpected EOF") :=
  ⟨rfl, by decide, by decide⟩

/-- C5, amended: when the ledger query, the content fetch or the document decoder is the
stage that fails, the message of the response is the message of that error, unchanged; when
the metadata decoder fails, it is that message with `gob decode err: ` put in front, as
`Bytes2Struct` wraps it. -/
theorem handler_message {σ : Type} (env : Env σ) (did : GoString) :
    (∀ e, env.InvokeBVMContract env.DIDRegistryContractAddr (lit "Resolve") [Arg.String did]
          = .error e →
        (handler env did).response.message? = some e) ∧
    (∀ ret e, env.InvokeBVMContract env.DIDRegistryContractAddr (lit "Resolve") [Arg.String did]
          = .ok ret →
        env.gobDecode ret = .error e →
        Bytes2Struct env ret = .error (lit "gob decode err: " ++ e) ∧
        (handler env did).response.message? = some (lit "gob decode err: " ++ e)) ∧
    (∀ ret info e,
        env.InvokeBVMContract env.DIDRegistryContractAddr (lit "Resolve") [Arg.String did]
          = .ok ret →
        env.gobDecode ret = .ok info →
        env.IPFSGet (lit "/ipfs/" ++ Normalize info.DocAddr) = .error e →
        (handler env did).response.message? = some e) ∧
    (∀ ret info data e,
        env.InvokeBVMContract env.DIDRegistryContractAddr (lit "Resolve") [Arg.String did]
          = .ok ret →
        env.gobDecode ret = .ok info →
        env.IPFSGet (lit "/ipfs/" ++ Normalize info.DocAddr) = .ok data →
        env.jsonUnmarshal data = .error e →
        (handler env did).response.message? = some e) := by
  refine ⟨?_, ?_, ?_, ?_⟩
  · intro e h1
    simp [handler, h1, Response.message?, WrongResponse]
  · intro ret e h1 h2
    simp [handler, Bytes2Struct, h1, h2, Response.message?, WrongResponse]
  · intro ret info e h1 h2 h3
    simp [handler, Bytes2Struct, h1, h2, h3, Response.message?, WrongResponse]
  · intro ret info data e h1 h2 h3 h4
    simp [handler, Bytes2Struct, h1, h2, h3, h4, Response.message?, WrongResponse]

/-- C5, the amended statement at four environments, each failing at one stage. -/
theorem handler_message_witness :
    (handler (exampleEnv 0) exampleDid).response.message? =
        some (lit "rpc error: connection refused") ∧
      (handler (exampleEnv 1) exampleDid).response.message? =
        some (lit "gob decode err: " ++ lit "unexpected EOF") ∧
      (handler (exampleEnv 2) exampleDid).response.message? = some (lit "ipfs: not found") ∧
      (handler (exampleEnv 3) exampleDid).response.message? =
        some (lit "unexpected end of JSON input") :=
  ⟨(handler_message (exampleEnv 0) exampleDid).1 _ rfl,
    ((handler_message (exampleEnv 1) exampleDid).2.1 _ _ rfl rfl).2,
    (handler_message (exampleEnv 2) exampleDid).2.2.1 _ _ _ rfl rfl rfl,
    (handler_message (exampleEnv 3) exampleDid).2.2.2 _ _ _ _ rfl rfl rfl rfl⟩

end Driver
